import Mathlib

/-!
# interval_map (src/main.cpp): a shallow embedding and its properties

`interval_map<K,V>` keeps a background value `m_valBegin` and a `std::map<K,V>`
of breakpoints.  The `std::map` is embedded as an association list held in key
order; an iterator is a position in that list (`0` is `begin()`, the length is
`end()`).  Operations with undefined behaviour in C++ (stepping before
`begin()`, dereferencing or erasing `end()`) return `none`.

`K` only needs its order, `V` only needs equality, as in the class comment.
-/

set_option autoImplicit false
set_option linter.unusedSectionVars false

/-! ## The model of `std::map` -/

namespace StdMap

variable {K V : Type} [LinearOrder K]

/-- Position of the first entry whose key is greater than `key`
(`std::map::upper_bound`); the length of the list when there is none. -/
def upper_bound : List (K × V) → K → Nat
  | [], _ => 0
  | p :: t, key => if key < p.1 then 0 else upper_bound t key + 1

/-- Predecessor of an iterator (`std::prev`, `it--`); undefined at `begin()`. -/
def prev (it : Nat) : Option Nat :=
  if it = 0 then none else some (it - 1)

/-- Successor of an iterator (`std::next`); undefined at `end()`. -/
def next (l : List (K × V)) (it : Nat) : Option Nat :=
  if it < l.length then some (it + 1) else none

/-- Dereference of an iterator (`it->first`, `it->second`); undefined at `end()`. -/
def deref (l : List (K × V)) (it : Nat) : Option (K × V) :=
  l.get? it

/-- Result of `insert_or_assign(key, val)` (and of `m[key] = val`): the new
table, the position of the entry for `key`, and whether a node was inserted
(`false` when an entry with an equivalent key was overwritten; its key is kept). -/
def insert_or_assign : List (K × V) → K → V → List (K × V) × Nat × Bool
  | [], key, val => ([(key, val)], 0, true)
  | p :: t, key, val =>
    if key < p.1 then ((key, val) :: p :: t, 0, true)
    else if p.1 < key then
      let r := insert_or_assign t key val
      (p :: r.1, r.2.1 + 1, r.2.2)
    else ((p.1, val) :: t, 0, false)

/-- Where an iterator `it` taken before an `insert_or_assign` points afterwards:
iterators of a `std::map` keep designating the same node, so a position at or
after a newly inserted node moves one to the right. -/
def afterInsert (r : List (K × V) × Nat × Bool) (it : Nat) : Nat :=
  if r.2.2 && decide (r.2.1 ≤ it) then it + 1 else it

/-- The loop `for (it = start; it != itEnd;) it = m_map.erase(it);`.
`erase(it)` removes the node at `it` and returns the iterator to the node that
followed it, which then sits at the same position; an `itEnd` behind the erased
node moves one to the left.  Erasing `end()` is undefined.  Every iteration
removes one node, so `fuel` above the length of the table is never used up. -/
def eraseLoop : Nat → List (K × V) → Nat → Nat → Option (List (K × V))
  | 0, _, _, _ => none
  | fuel + 1, l, it, itEnd =>
    if it = itEnd then some l
    else if it < l.length then
      eraseLoop fuel (l.eraseIdx it) it (if it < itEnd then itEnd - 1 else itEnd)
    else none

end StdMap

/-! ## The class `interval_map` -/

/-- The data members of `interval_map<K,V>`. -/
structure interval_map (K V : Type) where
  m_valBegin : V
  m_map : List (K × V)
  deriving DecidableEq

namespace interval_map

open StdMap

variable {K V : Type} [LinearOrder K] [DecidableEq V]

/-- The constructor `interval_map(V const& val)`: the whole range of `K` is
associated with `val`, the table is empty. -/
def ctor (val : V) : interval_map K V := ⟨val, []⟩

/-- The expression `it == m_map.begin() ? m_valBegin : std::prev(it)->second`
(line 65, and lines 129-133 of `operator[]`): the value in force just before
position `it`. -/
def valueBefore (valBegin : V) (l : List (K × V)) (it : Nat) : Option V :=
  if it = 0 then some valBegin
  else (prev it).bind fun i => (deref l i).map Prod.snd

/-- Lines 76-84 of `assign`: `itBegin = upper_bound(keyBegin)`, stepped back by
one when it is not `begin()` and the key before it is not less than `keyBegin`. -/
def leftBound (l : List (K × V)) (keyBegin : K) : Option Nat :=
  let itBegin := upper_bound l keyBegin
  if itBegin = 0 then some itBegin
  else (prev itBegin).bind fun i => (deref l i).bind fun p =>
    if ¬ (p.1 < keyBegin) then prev itBegin else some itBegin

/-- Lines 114-123 of `assign`: the erase loop from `itBegin` (when
`isDeleteItBegin`) or from its successor up to `itEnd`, then the breakpoint at
`keyEnd` when `val != valEnd`. -/
def assignTail (valBegin : V) (l : List (K × V)) (itBegin itEnd : Nat)
    (isDeleteItBegin : Bool) (keyEnd : K) (val valEnd : V) : Option (interval_map K V) :=
  (if isDeleteItBegin then some itBegin else next l itBegin).bind fun start =>
  (eraseLoop (l.length + 1) l start itEnd).bind fun l1 =>
  if val ≠ valEnd then
    some ⟨valBegin, (insert_or_assign l1 keyEnd valEnd).1⟩
  else
    some ⟨valBegin, l1⟩

/-- The two statements `m_map[keyBegin] = val; m_map[keyEnd] = x;` (lines
55-56, 70-71 and 99-100). -/
def insertBoth (valBegin : V) (l : List (K × V)) (keyBegin keyEnd : K) (val x : V) :
    interval_map K V :=
  let m1 := (insert_or_assign l keyBegin val).1
  let m2 := (insert_or_assign m1 keyEnd x).1
  ⟨valBegin, m2⟩

/-- The member function `assign(keyBegin, keyEnd, val)`; `none` stands for
undefined behaviour of an iterator operation. -/
def assign (m : interval_map K V) (keyBegin keyEnd : K) (val : V) :
    Option (interval_map K V) :=
  -- Empty interval case
  if ¬ (keyBegin < keyEnd) then some m
  else
    let isValEqValBegin : Bool := decide (val = m.m_valBegin)
    -- N == 0 case
    if m.m_map.isEmpty then
      if !isValEqValBegin then
        some (insertBoth m.m_valBegin m.m_map keyBegin keyEnd val m.m_valBegin)
      else some m
    else
      let itEnd := upper_bound m.m_map keyEnd
      (valueBefore m.m_valBegin m.m_map itEnd).bind fun valEnd =>
      if itEnd = 0 then
        -- both itBegin and itEnd are before the first element
        if !isValEqValBegin then
          some (insertBoth m.m_valBegin m.m_map keyBegin keyEnd val m.m_valBegin)
        else some m
      else
        (leftBound m.m_map keyBegin).bind fun itBegin =>
        if itBegin = 0 then
          let res := insert_or_assign m.m_map keyBegin val
          assignTail m.m_valBegin res.1 res.2.1 (afterInsert res itEnd)
            isValEqValBegin keyEnd val valEnd
        else if itBegin = m.m_map.length then
          (prev itBegin).bind fun i => (deref m.m_map i).bind fun p =>
          if p.2 = val then
            -- itBegin is the largest element, and its value is already correct
            some m
          else
            let valTrailing := p.2
            some (insertBoth m.m_valBegin m.m_map keyBegin keyEnd val valTrailing)
        else
          -- itBegin is somewhere in the middle of m_map
          (prev itBegin).bind fun i => (deref m.m_map i).bind fun p =>
          if p.2 = val then
            assignTail m.m_valBegin m.m_map i itEnd false keyEnd val valEnd
          else
            let res := insert_or_assign m.m_map keyBegin val
            assignTail m.m_valBegin res.1 res.2.1 (afterInsert res itEnd)
              false keyEnd val valEnd

/-- The local variables of `assign` when it enters the erase loop of line 115:
the table `m_map`, the iterators `itBegin` and `itEnd`, the flag
`isDeleteItBegin` and the value `valEnd`. -/
structure LoopEntry (K V : Type) where
  table : List (K × V)
  itBegin : Nat
  itEnd : Nat
  isDeleteItBegin : Bool
  valEnd : V

/-- Lines 37-112 of `assign`, the part before the erase loop: either the call
returns early (left: the map it leaves) or it reaches the erase loop (right:
the local variables there); `none` stands for undefined behaviour of an
iterator operation.  The branches are those of `assign`. -/
def assignHead (m : interval_map K V) (keyBegin keyEnd : K) (val : V) :
    Option (interval_map K V ⊕ LoopEntry K V) :=
  if ¬ (keyBegin < keyEnd) then some (.inl m)
  else
    let isValEqValBegin : Bool := decide (val = m.m_valBegin)
    if m.m_map.isEmpty then
      if !isValEqValBegin then
        some (.inl (insertBoth m.m_valBegin m.m_map keyBegin keyEnd val m.m_valBegin))
      else some (.inl m)
    else
      let itEnd := upper_bound m.m_map keyEnd
      (valueBefore m.m_valBegin m.m_map itEnd).bind fun valEnd =>
      if itEnd = 0 then
        if !isValEqValBegin then
          some (.inl (insertBoth m.m_valBegin m.m_map keyBegin keyEnd val m.m_valBegin))
        else some (.inl m)
      else
        (leftBound m.m_map keyBegin).bind fun itBegin =>
        if itBegin = 0 then
          let res := insert_or_assign m.m_map keyBegin val
          some (.inr ⟨res.1, res.2.1, afterInsert res itEnd, isValEqValBegin, valEnd⟩)
        else if itBegin = m.m_map.length then
          (prev itBegin).bind fun i => (deref m.m_map i).bind fun p =>
          if p.2 = val then some (.inl m)
          else some (.inl (insertBoth m.m_valBegin m.m_map keyBegin keyEnd val p.2))
        else
          (prev itBegin).bind fun i => (deref m.m_map i).bind fun p =>
          if p.2 = val then some (.inr ⟨m.m_map, i, itEnd, false, valEnd⟩)
          else
            let res := insert_or_assign m.m_map keyBegin val
            some (.inr ⟨res.1, res.2.1, afterInsert res itEnd, false, valEnd⟩)

/-- The rest of `assign` after `assignHead`: nothing after an early return,
lines 114-123 from the erase loop on. -/
def assignFinish (valBegin : V) (keyEnd : K) (val : V) :
    interval_map K V ⊕ LoopEntry K V → Option (interval_map K V)
  | .inl m => some m
  | .inr s => assignTail valBegin s.table s.itBegin s.itEnd s.isDeleteItBegin keyEnd val s.valEnd

/-- The position the erase loop starts from: `itBegin` when `isDeleteItBegin`,
`std::next(itBegin)` otherwise (line 115). -/
def loopStart (s : LoopEntry K V) : Option Nat :=
  if s.isDeleteItBegin then some s.itBegin else next s.table s.itBegin

/-- The member function `operator[]`: look-up of the value associated with
`key`; `none` stands for undefined behaviour of an iterator operation. -/
def lookup (m : interval_map K V) (key : K) : Option V :=
  valueBefore m.m_valBegin m.m_map (upper_bound m.m_map key)

/-- The member function `GetSize`. -/
def GetSize (m : interval_map K V) : Nat := m.m_map.length

/-- The loop of `isCanonical`, with `lastVal` the value of the previous entry. -/
def isCanonicalLoop (lastVal : V) : List (K × V) → Bool
  | [] => true
  | p :: t => if p.2 = lastVal then false else isCanonicalLoop p.2 t

/-- The member function `isCanonical`. -/
def isCanonical (m : interval_map K V) : Bool :=
  isCanonicalLoop m.m_valBegin m.m_map

/-- A sequence of `assign` calls `(keyBegin, keyEnd, val)` made one after the
other on `m`, as the test drivers do. -/
def assignAll (m : interval_map K V) : List (K × K × V) → Option (interval_map K V)
  | [] => some m
  | c :: cs => (assign m c.1 c.2.1 c.2.2).bind fun m1 => assignAll m1 cs

/-- The keys of a breakpoint table are strictly increasing (so there is no
duplicate key): the ordering invariant of `std::map`. -/
def keysIncreasing (l : List (K × V)) : Prop :=
  l.Pairwise (fun p q => p.1 < q.1)

instance (l : List (K × V)) : Decidable (keysIncreasing l) :=
  inferInstanceAs (Decidable (l.Pairwise (fun (p q : K × V) => p.1 < q.1)))

end interval_map

open interval_map StdMap


/-! ## Auxiliary notions used in the proofs -/

namespace interval_map

variable {K V : Type}

/-- Value of the last entry of a table, `bg` for the empty table. -/
def lastVal (bg : V) : List (K × V) → V
  | [] => bg
  | p :: t => lastVal p.2 t

/-- The entries of a table whose key is less than `x`. -/
def below [LinearOrder K] (l : List (K × V)) (x : K) : List (K × V) :=
  l.filter (fun p => decide (p.1 < x))

/-- The entries of a table whose key is not greater than `x`. -/
def upTo [LinearOrder K] (l : List (K × V)) (x : K) : List (K × V) :=
  l.filter (fun p => !decide (x < p.1))

/-- The entries of a table whose key is greater than `x`. -/
def above [LinearOrder K] (l : List (K × V)) (x : K) : List (K × V) :=
  l.filter (fun p => decide (x < p.1))

section

variable [LinearOrder K] [DecidableEq V]

/-- The entry at `keyBegin`, if any, of a table: nothing or one entry. -/
def AtMostKey (b : K) (Mb : List (K × V)) : Prop :=
  Mb = [] ∨ ∃ x, Mb = [(b, x)]

/-- The breakpoint placed at `keyEnd`: none when `val` equals `valEnd`. -/
def rightEdge (e : K) (v ve : V) : List (K × V) :=
  if v = ve then [] else [(e, ve)]

/-- The breakpoint placed at `keyBegin`: none when `val` equals the value in
force just below `keyBegin`. -/
def leftEdge (b : K) (v vp : V) : List (K × V) :=
  if v = vp then [] else [(b, v)]

/-- The table `assign(b, e, v)` leaves when `b < e` and the keys increase: the
entries below `b`, a breakpoint at `b` unless `v` is already in force just
below `b`, a breakpoint at `e` restoring the value looked up at `e` unless that
value is `v`, and the entries above `e`. -/
def mergedTable (bg : V) (l : List (K × V)) (b e : K) (v : V) : List (K × V) :=
  below l b ++ leftEdge b v (lastVal bg (below l b))
    ++ rightEdge e v (lastVal bg (upTo l e)) ++ above l e

/-- The states of a map built by `assign` calls: increasing keys, canonical,
and the last stored value is the background value. -/
def WellFormed (m : interval_map K V) : Prop :=
  keysIncreasing m.m_map ∧ isCanonical m = true ∧ lastVal m.m_valBegin m.m_map = m.m_valBegin

/-- The table with every entry dropped that repeats the value in force before
it (proof device for minimality; not part of the class). -/
def dropRepeats (bg : V) : List (K × V) → List (K × V)
  | [] => []
  | a :: t => if a.2 = bg then dropRepeats bg t else a :: dropRepeats a.2 t

end

end interval_map

/-! ## Facts about the `std::map` model -/

namespace StdMap

open interval_map

section NoOrder

variable {K V : Type}

theorem lastVal_append (bg : V) (A B : List (K × V)) :
    lastVal bg (A ++ B) = lastVal (lastVal bg A) B := by
  induction A generalizing bg with
  | nil => rfl
  | cons p t ih => simpa [lastVal] using ih p.2

theorem lastVal_concat (bg : V) (A : List (K × V)) (p : K × V) :
    lastVal bg (A ++ [p]) = p.2 := by
  rw [lastVal_append]; rfl

theorem deref_append_length (A B : List (K × V)) (p : K × V) :
    deref (A ++ p :: B) A.length = some p := by
  induction A with
  | nil => rfl
  | cons q t ih => simpa [deref] using ih

theorem eraseLoop_range (A M B : List (K × V)) (fuel : Nat) (h : M.length < fuel) :
    eraseLoop fuel (A ++ M ++ B) A.length (A.length + M.length) = some (A ++ B) := by
  induction M generalizing fuel with
  | nil =>
    cases fuel with
    | zero => omega
    | succ n => simp [eraseLoop]
  | cons x t ih =>
    cases fuel with
    | zero => omega
    | succ n =>
      have hlen : t.length < n := by simpa using h
      have hi := ih n hlen
      have he : (A ++ x :: t ++ B).eraseIdx A.length = A ++ t ++ B := by
        rw [List.append_assoc, List.eraseIdx_append_of_length_le (le_refl _)]
        simp
      simp only [eraseLoop, List.length_cons]
      rw [if_neg (by omega), if_pos (by simp), he, if_pos (by omega)]
      have : A.length + (t.length + 1) - 1 = A.length + t.length := by omega
      rw [this]; exact hi

end NoOrder

variable {K V : Type} [LinearOrder K]

theorem upper_bound_append (A B : List (K × V)) (key : K)
    (hA : ∀ p ∈ A, ¬ key < p.1) (hB : ∀ p ∈ B, key < p.1) :
    upper_bound (A ++ B) key = A.length := by
  induction A with
  | nil =>
    cases B with
    | nil => rfl
    | cons q t => simp [upper_bound, hB q (List.mem_cons_self _ _)]
  | cons p t ih =>
    have hp : ¬ key < p.1 := hA p (List.mem_cons_self _ _)
    have ht : ∀ q ∈ t, ¬ key < q.1 := fun q hq => hA q (List.mem_cons_of_mem _ hq)
    simp [upper_bound, hp, ih ht]

theorem insert_or_assign_append_new (A B : List (K × V)) (key : K) (val : V)
    (hA : ∀ p ∈ A, p.1 < key) (hB : ∀ p ∈ B, key < p.1) :
    insert_or_assign (A ++ B) key val = (A ++ (key, val) :: B, A.length, true) := by
  induction A with
  | nil =>
    cases B with
    | nil => rfl
    | cons q t => simp [insert_or_assign, hB q (List.mem_cons_self _ _)]
  | cons p t ih =>
    have hp : p.1 < key := hA p (List.mem_cons_self _ _)
    have ht : ∀ q ∈ t, q.1 < key := fun q hq => hA q (List.mem_cons_of_mem _ hq)
    simp [insert_or_assign, hp, not_lt_of_gt hp, ih ht]

theorem insert_or_assign_append_old (A B : List (K × V)) (key : K) (x val : V)
    (hA : ∀ p ∈ A, p.1 < key) :
    insert_or_assign (A ++ (key, x) :: B) key val = (A ++ (key, val) :: B, A.length, false) := by
  induction A with
  | nil => simp [insert_or_assign]
  | cons p t ih =>
    have hp : p.1 < key := hA p (List.mem_cons_self _ _)
    have ht : ∀ q ∈ t, q.1 < key := fun q hq => hA q (List.mem_cons_of_mem _ hq)
    simp [insert_or_assign, hp, not_lt_of_gt hp, ih ht]

end StdMap

/-! ## `assign` on a table split around `keyBegin` and `keyEnd` -/

namespace interval_map

open StdMap

section NoOrder

variable {K V : Type}

theorem eq_nil_or_snoc (l : List (K × V)) : l = [] ∨ ∃ t p, l = t ++ [p] := by
  rcases List.eq_nil_or_concat l with h | ⟨t, p, h⟩
  · exact Or.inl h
  · exact Or.inr ⟨t, p, by simpa [List.concat_eq_append] using h⟩

theorem valueBefore_append (bg : V) (A B : List (K × V)) :
    valueBefore bg (A ++ B) A.length = some (lastVal bg A) := by
  rcases eq_nil_or_snoc A with rfl | ⟨A1, p, rfl⟩
  · rfl
  · have h : deref (A1 ++ [p] ++ B) A1.length = some p := by
      rw [List.append_assoc]; exact deref_append_length A1 _ p
    have hl : (A1 ++ [p]).length - 1 = A1.length := by simp
    have hne : (A1 ++ [p]).length ≠ 0 := by simp
    simp only [valueBefore, prev, if_neg hne, hl, Option.some_bind, h, Option.map_some',
      lastVal_concat]

end NoOrder

variable {K V : Type} [LinearOrder K] [DecidableEq V]

theorem leftBound_split (L Mb X : List (K × V)) (b : K)
    (hL : ∀ p ∈ L, p.1 < b) (hMb : AtMostKey b Mb) (hX : ∀ p ∈ X, b < p.1) :
    leftBound (L ++ Mb ++ X) b = some L.length := by
  have hL2 : ∀ p ∈ L, ¬ b < p.1 := fun p hp => not_lt_of_gt (hL p hp)
  rcases hMb with rfl | ⟨x, rfl⟩
  · have hu : upper_bound (L ++ [] ++ X) b = L.length := by
      simpa using upper_bound_append L X b hL2 hX
    rcases eq_nil_or_snoc L with rfl | ⟨L1, p, rfl⟩
    · simp only [leftBound, hu, List.length_nil, if_true]
    · have hd : deref (L1 ++ [p] ++ [] ++ X) L1.length = some p := by
        simpa using deref_append_length L1 X p
      have hp : p.1 < b := hL p (by simp)
      have hl : (L1 ++ [p]).length - 1 = L1.length := by simp
      have hne : (L1 ++ [p]).length ≠ 0 := by simp
      simp only [leftBound, hu, prev, if_neg hne, hl, Option.some_bind, hd]
      rw [if_neg (not_not.2 hp)]
  · have hu : upper_bound (L ++ [(b, x)] ++ X) b = L.length + 1 := by
      have := upper_bound_append (L ++ [(b, x)]) X b
        (by
          intro p hp
          rcases List.mem_append.1 hp with h | h
          · exact hL2 p h
          · have : p = (b, x) := by simpa using h
            subst this; exact lt_irrefl _) hX
      simpa using this
    have hd : deref (L ++ [(b, x)] ++ X) L.length = some (b, x) := by
      simpa using deref_append_length L X (b, x)
    have hb : ¬ b < b := lt_irrefl b
    simp only [leftBound, hu, prev, Nat.add_sub_cancel, Option.some_bind, hd,
      Nat.succ_ne_zero, if_false]
    rw [if_pos hb]

theorem finish_split (bg : V) (A R : List (K × V)) (e : K) (v ve : V)
    (hA : ∀ p ∈ A, p.1 < e) (hR : ∀ p ∈ R, e < p.1) :
    (if v ≠ ve then some (⟨bg, (insert_or_assign (A ++ R) e ve).1⟩ : interval_map K V)
      else some ⟨bg, A ++ R⟩) = some ⟨bg, A ++ rightEdge e v ve ++ R⟩ := by
  by_cases h : v = ve
  · simp [rightEdge, h]
  · rw [if_pos h, insert_or_assign_append_new A R e ve hA hR]
    simp [rightEdge, h]

theorem assignTail_keep (bg : V) (A Mid R : List (K × V)) (a : K × V) (e : K) (v ve : V)
    (hA : ∀ p ∈ A, p.1 < e) (ha : a.1 < e) (hR : ∀ p ∈ R, e < p.1) :
    assignTail bg (A ++ [a] ++ Mid ++ R) A.length (A.length + 1 + Mid.length) false e v ve
      = some ⟨bg, A ++ [a] ++ rightEdge e v ve ++ R⟩ := by
  have hn : next (A ++ [a] ++ Mid ++ R) A.length = some ((A ++ [a]).length) := by
    simp [next]
  have hlen : A.length + 1 + Mid.length = (A ++ [a]).length + Mid.length := by simp
  have hA2 : ∀ p ∈ A ++ [a], p.1 < e := by
    intro p hp
    rcases List.mem_append.1 hp with h | h
    · exact hA p h
    · have : p = a := by simpa using h
      subst this; exact ha
  have hfuel : Mid.length < (A ++ [a] ++ Mid ++ R).length + 1 := by
    simp; omega
  unfold assignTail
  rw [if_neg (by simp), hn, Option.some_bind, hlen,
    eraseLoop_range (A ++ [a]) Mid R _ hfuel, Option.some_bind]
  exact finish_split bg (A ++ [a]) R e v ve hA2 hR

theorem assignTail_drop (bg : V) (Mid R : List (K × V)) (a : K × V) (e : K) (v ve : V)
    (hR : ∀ p ∈ R, e < p.1) :
    assignTail bg ([] ++ [a] ++ Mid ++ R) ([] : List (K × V)).length
        (([] : List (K × V)).length + 1 + Mid.length) true e v ve
      = some ⟨bg, rightEdge e v ve ++ R⟩ := by
  have hfuel : ([a] ++ Mid).length < ([] ++ [a] ++ Mid ++ R).length + 1 := by
    simp; omega
  have hlen : ([] : List (K × V)).length + 1 + Mid.length
      = ([] : List (K × V)).length + ([a] ++ Mid).length := by simp; omega
  have h := eraseLoop_range ([] : List (K × V)) ([a] ++ Mid) R _ hfuel
  have h2 : ([] : List (K × V)) ++ ([a] ++ Mid) ++ R = [] ++ [a] ++ Mid ++ R := by simp
  rw [h2] at h
  unfold assignTail
  rw [if_pos rfl, Option.some_bind, hlen, h, Option.some_bind]
  simpa using finish_split bg [] R e v ve (by simp) hR

theorem insert_begin_split (L Mb M R : List (K × V)) (b e : K) (v : V) (hbe : b < e)
    (hL : ∀ p ∈ L, p.1 < b) (hMb : AtMostKey b Mb)
    (hM : ∀ p ∈ M, b < p.1 ∧ ¬ e < p.1) (hR : ∀ p ∈ R, e < p.1) :
    ∃ flag, insert_or_assign (L ++ Mb ++ M ++ R) b v = (L ++ [(b, v)] ++ M ++ R, L.length, flag)
      ∧ afterInsert (L ++ [(b, v)] ++ M ++ R, L.length, flag) (L ++ Mb ++ M).length
          = L.length + 1 + M.length := by
  have hX : ∀ p ∈ M ++ R, b < p.1 := by
    intro p hp
    rcases List.mem_append.1 hp with h | h
    · exact (hM p h).1
    · exact lt_trans hbe (hR p h)
  rcases hMb with rfl | ⟨x, rfl⟩
  · refine ⟨true, ?_, ?_⟩
    · have := insert_or_assign_append_new L (M ++ R) b v hL hX
      simpa using this
    · simp [afterInsert]; omega
  · refine ⟨false, ?_, ?_⟩
    · have := insert_or_assign_append_old L (M ++ R) b x v hL
      simpa using this
    · simp [afterInsert]; omega

theorem insertBoth_split (bg : V) (A R : List (K × V)) (b e : K) (v x : V) (hbe : b < e)
    (hA : ∀ p ∈ A, p.1 < b) (hR : ∀ p ∈ R, e < p.1) :
    insertBoth bg (A ++ R) b e v x = ⟨bg, A ++ [(b, v)] ++ [(e, x)] ++ R⟩ := by
  have h1 := insert_or_assign_append_new A R b v hA (fun p hp => lt_trans hbe (hR p hp))
  have hA2 : ∀ p ∈ A ++ [(b, v)], p.1 < e := by
    intro p hp
    rcases List.mem_append.1 hp with h | h
    · exact lt_trans (hA p h) hbe
    · have : p = (b, v) := by simpa using h
      subst this; exact hbe
  have h2 := insert_or_assign_append_new (A ++ [(b, v)]) R e x hA2 hR
  have h3 : A ++ (b, v) :: R = A ++ [(b, v)] ++ R := by simp
  simp only [insertBoth, h1, h3, h2]
  simp

/-- The effect of `assign` on a table split as `L ++ Mb ++ M ++ R`, with the
keys of `L` below `keyBegin`, `Mb` the entry at `keyBegin` if any, the keys of
`M` above `keyBegin` and not above `keyEnd`, the keys of `R` above `keyEnd`. -/
theorem assign_split (bg : V) (L Mb M R : List (K × V)) (b e : K) (v : V) (hbe : b < e)
    (hL : ∀ p ∈ L, p.1 < b) (hMb : AtMostKey b Mb)
    (hM : ∀ p ∈ M, b < p.1 ∧ ¬ e < p.1) (hR : ∀ p ∈ R, e < p.1) :
    assign ⟨bg, L ++ Mb ++ M ++ R⟩ b e v
      = some ⟨bg, L ++ leftEdge b v (lastVal bg L)
          ++ rightEdge e v (lastVal bg (L ++ Mb ++ M)) ++ R⟩ := by
  have hMbe : ∀ p ∈ Mb, ¬ e < p.1 := by
    intro p hp
    rcases hMb with rfl | ⟨x, rfl⟩
    · simp at hp
    · have : p = (b, x) := by simpa using hp
      subst this; exact not_lt_of_gt hbe
  have hLMe : ∀ p ∈ L ++ Mb ++ M, ¬ e < p.1 := by
    intro p hp
    rcases List.mem_append.1 hp with h | h
    · rcases List.mem_append.1 h with h | h
      · exact not_lt_of_gt (lt_trans (hL p h) hbe)
      · exact hMbe p h
    · exact (hM p h).2
  have hXb : ∀ p ∈ M ++ R, b < p.1 := by
    intro p hp
    rcases List.mem_append.1 hp with h | h
    · exact (hM p h).1
    · exact lt_trans hbe (hR p h)
  have hue : upper_bound (L ++ Mb ++ M ++ R) e = (L ++ Mb ++ M).length :=
    upper_bound_append (L ++ Mb ++ M) R e hLMe hR
  have hvb : valueBefore bg (L ++ Mb ++ M ++ R) (L ++ Mb ++ M).length
      = some (lastVal bg (L ++ Mb ++ M)) := valueBefore_append bg (L ++ Mb ++ M) R
  have hlb : leftBound (L ++ Mb ++ M ++ R) b = some L.length := by
    have := leftBound_split L Mb (M ++ R) b hL hMb hXb
    simpa [List.append_assoc] using this
  obtain ⟨flag, hins, haft⟩ := insert_begin_split L Mb M R b e v hbe hL hMb hM hR
  unfold assign
  simp only [hue, hvb, hlb, Option.some_bind, hins, haft]
  rw [if_neg (not_not.2 hbe)]
  by_cases hLM : L ++ Mb ++ M = []
  · obtain ⟨rfl, rfl, rfl⟩ : L = [] ∧ Mb = [] ∧ M = [] := by
      simpa [List.append_eq_nil, and_assoc] using hLM
    simp only [List.nil_append, List.length_nil, if_true, ite_self, lastVal]
    by_cases hv : v = bg
    · simp [hv, leftEdge, rightEdge]
    · have := insertBoth_split bg [] R b e v bg hbe (by simp) hR
      simp only [List.nil_append] at this
      simp [hv, this, leftEdge, rightEdge]
  · have hne : (L ++ Mb ++ M ++ R).isEmpty = false := by
      cases hc : L ++ Mb ++ M with
      | nil => exact absurd hc hLM
      | cons q t => rfl
    have hlen0 : (L ++ Mb ++ M).length ≠ 0 := fun h => hLM (List.length_eq_zero.1 h)
    rw [hne, if_neg (by simp), if_neg hlen0]
    rcases eq_nil_or_snoc L with rfl | ⟨L1, p, rfl⟩
    · rw [if_pos List.length_nil]
      by_cases hv : v = bg
      · have hd : decide (v = bg) = true := by simpa using hv
        rw [hd, assignTail_drop bg M R (b, v) e v _ hR]
        simp [leftEdge, lastVal, hv]
      · have hd : decide (v = bg) = false := by simpa using hv
        rw [hd, assignTail_keep bg [] M R (b, v) e v _ (by simp) hbe hR]
        simp [leftEdge, lastVal, hv]
    · have hl0 : (L1 ++ [p]).length ≠ 0 := by simp
      have hpv : prev (L1 ++ [p]).length = some L1.length := by simp [prev]
      have hd : deref (L1 ++ [p] ++ Mb ++ M ++ R) L1.length = some p := by
        have := deref_append_length L1 (Mb ++ M ++ R) p
        simpa [List.append_assoc] using this
      have hlv : lastVal bg (L1 ++ [p]) = p.2 := lastVal_concat bg L1 p
      rw [if_neg hl0, hpv]
      simp only [Option.some_bind, hd, hlv]
      by_cases hrest : Mb ++ M ++ R = []
      · obtain ⟨rfl, rfl, rfl⟩ : Mb = [] ∧ M = [] ∧ R = [] := by
          simpa [List.append_eq_nil, and_assoc] using hrest
        simp only [List.append_nil, if_true, hlv]
        by_cases hv : p.2 = v
        · simp [hv, leftEdge, rightEdge]
        · have := insertBoth_split bg (L1 ++ [p]) [] b e v p.2 hbe hL (by simp)
          simp only [List.append_nil] at this
          have hv2 : ¬ v = p.2 := fun h => hv h.symm
          simp [hv, hv2, this, leftEdge, rightEdge]
      · have hlen : (L1 ++ [p]).length ≠ (L1 ++ [p] ++ Mb ++ M ++ R).length := by
          have : 0 < (Mb ++ M ++ R).length := List.length_pos.2 hrest
          simp only [List.length_append] at this ⊢; omega
        rw [if_neg hlen]
        by_cases hv : p.2 = v
        · have hlen2 : (L1 ++ [p] ++ Mb ++ M).length = L1.length + 1 + (Mb ++ M).length := by
            simp; omega
          have hl2 : L1 ++ [p] ++ Mb ++ M ++ R = L1 ++ [p] ++ (Mb ++ M) ++ R := by simp
          have hp : p.1 < e := lt_trans (hL p (by simp)) hbe
          have hL1 : ∀ q ∈ L1, q.1 < e := fun q hq => lt_trans (hL q (by simp [hq])) hbe
          rw [if_pos hv, hlen2, hl2, assignTail_keep bg L1 (Mb ++ M) R p e v _ hL1 hp hR]
          simp [leftEdge, hv]
        · have hv2 : ¬ v = p.2 := fun h => hv h.symm
          have hLe : ∀ q ∈ L1 ++ [p], q.1 < e := fun q hq => lt_trans (hL q hq) hbe
          rw [if_neg hv, assignTail_keep bg (L1 ++ [p]) M R (b, v) e v _ hLe hbe hR]
          simp [leftEdge, hv2]

/-! ## Tables with increasing keys -/

theorem keysIncreasing_filter (l : List (K × V)) (P : K × V → Bool)
    (hs : keysIncreasing l) : keysIncreasing (l.filter P) :=
  List.Pairwise.filter P hs

theorem filter_split (l : List (K × V)) (hs : keysIncreasing l) (P : K × V → Bool)
    (hP : ∀ p q : K × V, p.1 < q.1 → P q = true → P p = true) :
    l = l.filter P ++ l.filter (fun p => !P p) := by
  induction l with
  | nil => rfl
  | cons a t ih =>
    have hat : ∀ q ∈ t, a.1 < q.1 := (List.pairwise_cons.1 hs).1
    have hts : keysIncreasing t := (List.pairwise_cons.1 hs).2
    by_cases ha : P a = true
    · have h1 : (a :: t).filter P = a :: t.filter P := List.filter_cons_of_pos ha
      have h2 : (a :: t).filter (fun p => !P p) = t.filter (fun p => !P p) :=
        List.filter_cons_of_neg (by simp [ha])
      rw [h1, h2, List.cons_append, ← ih hts]
    · have h1 : (a :: t).filter P = [] := by
        rw [List.filter_eq_nil_iff]
        intro q hq hPq
        rcases List.mem_cons.1 hq with rfl | hq
        · exact ha hPq
        · exact ha (hP a q (hat q hq) hPq)
      have h2 : (a :: t).filter (fun p => !P p) = a :: t := by
        rw [List.filter_eq_self]
        intro q hq
        rcases List.mem_cons.1 hq with rfl | hq
        · simpa using ha
        · have : ¬ P q = true := fun hPq => ha (hP a q (hat q hq) hPq)
          simpa using this
      rw [h1, h2, List.nil_append]

theorem split_upTo_above (l : List (K × V)) (hs : keysIncreasing l) (x : K) :
    l = upTo l x ++ above l x := by
  have h := filter_split l hs (fun p => !decide (x < p.1))
    (by
      intro p q hpq hq
      have hq2 : ¬ x < q.1 := by simpa using hq
      have : ¬ x < p.1 := fun h => hq2 (lt_trans h hpq)
      simpa using this)
  simpa [upTo, above] using h

theorem split_below (l : List (K × V)) (hs : keysIncreasing l) (x : K) :
    l = below l x ++ l.filter (fun p => !decide (p.1 < x)) := by
  have h := filter_split l hs (fun p => decide (p.1 < x))
    (by
      intro p q hpq hq
      have hq2 : q.1 < x := by simpa using hq
      simpa using lt_trans hpq hq2)
  simpa [below] using h

theorem mem_below {l : List (K × V)} {x : K} {p : K × V} (h : p ∈ below l x) : p.1 < x := by
  simpa using (List.mem_filter.1 h).2

theorem mem_upTo {l : List (K × V)} {x : K} {p : K × V} (h : p ∈ upTo l x) : ¬ x < p.1 := by
  simpa using (List.mem_filter.1 h).2

theorem mem_above {l : List (K × V)} {x : K} {p : K × V} (h : p ∈ above l x) : x < p.1 := by
  simpa using (List.mem_filter.1 h).2

theorem below_upTo (l : List (K × V)) (b e : K) (hbe : b < e) :
    below (upTo l e) b = below l b := by
  unfold below upTo
  rw [List.filter_filter]
  apply List.filter_congr
  intro p _
  by_cases h : p.1 < b
  · have : ¬ e < p.1 := not_lt_of_gt (lt_trans h hbe)
    simp [h, this]
  · simp [h]

theorem split_four (l : List (K × V)) (hs : keysIncreasing l) (b e : K) (hbe : b < e) :
    ∃ Mb M, l = below l b ++ Mb ++ M ++ above l e
      ∧ upTo l e = below l b ++ Mb ++ M
      ∧ AtMostKey b Mb ∧ ∀ p ∈ M, b < p.1 ∧ ¬ e < p.1 := by
  have hU : l = upTo l e ++ above l e := split_upTo_above l hs e
  have hUs : keysIncreasing (upTo l e) := keysIncreasing_filter l _ hs
  have hU2 := split_below (upTo l e) hUs b
  rw [below_upTo l b e hbe] at hU2
  have hMs : keysIncreasing ((upTo l e).filter (fun p => !decide (p.1 < b))) :=
    keysIncreasing_filter _ _ hUs
  have hMmem : ∀ p ∈ (upTo l e).filter (fun p => !decide (p.1 < b)),
      ¬ p.1 < b ∧ ¬ e < p.1 := by
    intro p hp
    have h := List.mem_filter.1 hp
    exact ⟨by simpa using h.2, mem_upTo h.1⟩
  cases hMid : (upTo l e).filter (fun p => !decide (p.1 < b)) with
  | nil =>
    rw [hMid] at hU2
    refine ⟨[], [], ?_, ?_, Or.inl rfl, by simp⟩
    · have h := hU
      rw [hU2] at h
      simpa using h
    · simpa using hU2
  | cons a t =>
    rw [hMid] at hU2 hMs hMmem
    have hat : ∀ q ∈ t, a.1 < q.1 := (List.pairwise_cons.1 hMs).1
    have ha := hMmem a (List.mem_cons_self _ _)
    by_cases hab : b < a.1
    · refine ⟨[], a :: t, ?_, ?_, Or.inl rfl, ?_⟩
      · have h := hU
        rw [hU2] at h
        simpa using h
      · simpa using hU2
      · intro q hq
        refine ⟨?_, (hMmem q hq).2⟩
        rcases List.mem_cons.1 hq with rfl | hq
        · exact hab
        · exact lt_trans hab (hat q hq)
    · have hbeq : a.1 = b := le_antisymm (not_lt.1 hab) (not_lt.1 ha.1)
      refine ⟨[a], t, ?_, ?_, Or.inr ⟨a.2, ?_⟩, ?_⟩
      · have h := hU
        rw [hU2] at h
        simpa using h
      · simpa using hU2
      · rw [← hbeq]
      · intro q hq
        refine ⟨?_, (hMmem q (List.mem_cons_of_mem _ hq)).2⟩
        rw [← hbeq]; exact hat q hq

theorem assign_increasing (bg : V) (l : List (K × V)) (b e : K) (v : V)
    (hs : keysIncreasing l) (hbe : b < e) :
    assign ⟨bg, l⟩ b e v = some ⟨bg, mergedTable bg l b e v⟩ := by
  obtain ⟨Mb, M, hl, hu, hMb, hM⟩ := split_four l hs b e hbe
  have h := assign_split bg (below l b) Mb M (above l e) b e v hbe
    (fun p hp => mem_below hp) hMb hM (fun p hp => mem_above hp)
  rw [← hl, ← hu] at h
  exact h

/-! ## Look-up -/

theorem lookup_append (bg : V) (A B : List (K × V)) (k : K)
    (hA : ∀ p ∈ A, ¬ k < p.1) (hB : ∀ p ∈ B, k < p.1) :
    lookup ⟨bg, A ++ B⟩ k = some (lastVal bg A) := by
  unfold lookup
  simp only [upper_bound_append A B k hA hB, valueBefore_append]

theorem lookup_increasing (bg : V) (l : List (K × V)) (k : K) (hs : keysIncreasing l) :
    lookup ⟨bg, l⟩ k = some (lastVal bg (upTo l k)) := by
  have h := lookup_append bg (upTo l k) (above l k) k (fun p hp => mem_upTo hp)
    (fun p hp => mem_above hp)
  rw [← split_upTo_above l hs k] at h
  exact h

theorem lookup_cons (bg : V) (a : K × V) (t : List (K × V)) (k : K) :
    lookup ⟨bg, a :: t⟩ k = if k < a.1 then some bg else lookup ⟨a.2, t⟩ k := by
  by_cases h : k < a.1
  · simp [lookup, upper_bound, valueBefore, h]
  · by_cases h0 : upper_bound t k = 0
    · simp [lookup, upper_bound, valueBefore, h, h0, prev, deref]
    · obtain ⟨n, hn⟩ := Nat.exists_eq_succ_of_ne_zero h0
      simp [lookup, upper_bound, valueBefore, h, hn, prev, deref]

theorem lookup_total (m : interval_map K V) (k : K) : ∃ v, lookup m k = some v := by
  obtain ⟨bg, l⟩ := m
  induction l generalizing bg with
  | nil => exact ⟨bg, rfl⟩
  | cons a t ih =>
    rw [lookup_cons]
    by_cases h : k < a.1
    · exact ⟨bg, by rw [if_pos h]⟩
    · rw [if_neg h]; exact ih a.2

theorem lastVal_leftEdge (b : K) (v vp : V) : lastVal vp (leftEdge b v vp) = v := by
  unfold leftEdge
  by_cases h : v = vp
  · rw [if_pos h]; exact h.symm
  · rw [if_neg h]; rfl

theorem lastVal_rightEdge (e : K) (v ve : V) : lastVal v (rightEdge e v ve) = ve := by
  unfold rightEdge
  by_cases h : v = ve
  · rw [if_pos h]; exact h
  · rw [if_neg h]; rfl

theorem mem_leftEdge {b : K} {v vp : V} {p : K × V} (h : p ∈ leftEdge b v vp) : p = (b, v) := by
  unfold leftEdge at h
  by_cases hv : v = vp
  · simp [hv] at h
  · simpa [hv] using h

theorem mem_rightEdge {e : K} {v ve : V} {p : K × V} (h : p ∈ rightEdge e v ve) :
    p = (e, ve) := by
  unfold rightEdge at h
  by_cases hv : v = ve
  · simp [hv] at h
  · simpa [hv] using h

theorem upTo_below (l : List (K × V)) (k b : K) (hkb : k < b) :
    upTo (below l b) k = upTo l k := by
  unfold below upTo
  rw [List.filter_filter]
  apply List.filter_congr
  intro p _
  by_cases h : k < p.1
  · simp [h]
  · have : p.1 < b := lt_of_le_of_lt (not_lt.1 h) hkb
    simp [h, this]

theorem upTo_upTo (l : List (K × V)) (e k : K) (hek : e ≤ k) :
    upTo (upTo l k) e = upTo l e := by
  unfold upTo
  rw [List.filter_filter]
  apply List.filter_congr
  intro p _
  by_cases h : e < p.1
  · simp [h]
  · have : ¬ k < p.1 := fun h2 => h (lt_of_le_of_lt hek h2)
    simp [h, this]

theorem above_upTo (l : List (K × V)) (e k : K) :
    above (upTo l k) e = upTo (above l e) k := by
  unfold upTo above
  rw [List.filter_filter, List.filter_filter]
  apply List.filter_congr
  intro p _
  exact Bool.and_comm _ _

/-- Look-up in the table left by `assign`. -/
theorem lookup_mergedTable (bg : V) (l : List (K × V)) (b e : K) (v : V) (k : K)
    (hs : keysIncreasing l) (hbe : b < e) :
    lookup ⟨bg, mergedTable bg l b e v⟩ k
      = if b ≤ k ∧ k < e then some v else lookup ⟨bg, l⟩ k := by
  rw [lookup_increasing bg l k hs]
  unfold mergedTable
  by_cases hkb : k < b
  · rw [if_neg (fun h => not_lt_of_ge h.1 hkb)]
    have hbs : keysIncreasing (below l b) := keysIncreasing_filter l _ hs
    have hsplit := split_upTo_above (below l b) hbs k
    rw [upTo_below l k b hkb] at hsplit
    have hLE : ∀ p ∈ leftEdge b v (lastVal bg (below l b)), p = (b, v) :=
      fun p h => mem_leftEdge h
    generalize leftEdge b v (lastVal bg (below l b)) = LE at hLE ⊢
    have hB : ∀ p ∈ above (below l b) k ++ LE
        ++ rightEdge e v (lastVal bg (upTo l e)) ++ above l e, k < p.1 := by
      intro p hp
      rcases List.mem_append.1 hp with h | h
      · rcases List.mem_append.1 h with h | h
        · rcases List.mem_append.1 h with h | h
          · exact mem_above h
          · rw [hLE p h]; exact hkb
        · rw [mem_rightEdge h]; exact lt_trans hkb hbe
      · exact lt_trans (lt_trans hkb hbe) (mem_above h)
    have h := lookup_append bg (upTo l k) _ k (fun p hp => mem_upTo hp) hB
    rw [hsplit]
    simpa [List.append_assoc] using h
  · have hbk : b ≤ k := not_lt.1 hkb
    by_cases hke : k < e
    · rw [if_pos ⟨hbk, hke⟩]
      have hA : ∀ p ∈ below l b ++ leftEdge b v (lastVal bg (below l b)), ¬ k < p.1 := by
        intro p hp
        rcases List.mem_append.1 hp with h | h
        · exact not_lt_of_ge (le_trans (le_of_lt (mem_below h)) hbk)
        · rw [mem_leftEdge h]; exact hkb
      have hB : ∀ p ∈ rightEdge e v (lastVal bg (upTo l e)) ++ above l e, k < p.1 := by
        intro p hp
        rcases List.mem_append.1 hp with h | h
        · rw [mem_rightEdge h]; exact hke
        · exact lt_trans hke (mem_above h)
      have h := lookup_append bg _ _ k hA hB
      rw [lastVal_append, lastVal_leftEdge] at h
      simpa [List.append_assoc] using h
    · rw [if_neg (fun h => hke h.2)]
      have hek : e ≤ k := not_lt.1 hke
      have has : keysIncreasing (above l e) := keysIncreasing_filter l _ hs
      have hsplit := split_upTo_above (above l e) has k
      have hus : keysIncreasing (upTo l k) := keysIncreasing_filter l _ hs
      have hsplit2 := split_upTo_above (upTo l k) hus e
      rw [upTo_upTo l e k hek, above_upTo] at hsplit2
      have hA : ∀ p ∈ below l b ++ leftEdge b v (lastVal bg (below l b))
          ++ rightEdge e v (lastVal bg (upTo l e)) ++ upTo (above l e) k, ¬ k < p.1 := by
        intro p hp
        rcases List.mem_append.1 hp with h | h
        · rcases List.mem_append.1 h with h | h
          · rcases List.mem_append.1 h with h | h
            · exact not_lt_of_ge (le_trans (le_of_lt (mem_below h)) hbk)
            · rw [mem_leftEdge h]; exact hkb
          · rw [mem_rightEdge h]; exact hke
        · exact mem_upTo h
      have h := lookup_append bg _ (above (above l e) k) k hA (fun p hp => mem_above hp)
      rw [lastVal_append, lastVal_append, lastVal_append, lastVal_leftEdge,
        lastVal_rightEdge, ← lastVal_append, ← hsplit2, List.append_assoc, ← hsplit] at h
      exact h

/-! ## What `assign` preserves -/

theorem keysIncreasing_mergedTable (bg : V) (l : List (K × V)) (b e : K) (v : V)
    (hs : keysIncreasing l) (hbe : b < e) : keysIncreasing (mergedTable bg l b e v) := by
  have hLE : ∀ p ∈ leftEdge b v (lastVal bg (below l b)), p.1 = b :=
    fun p h => by rw [mem_leftEdge h]
  have hRE : ∀ p ∈ rightEdge e v (lastVal bg (upTo l e)), p.1 = e :=
    fun p h => by rw [mem_rightEdge h]
  have hLEs : keysIncreasing (leftEdge b v (lastVal bg (below l b))) := by
    unfold leftEdge keysIncreasing; split_ifs <;> simp
  have hREs : keysIncreasing (rightEdge e v (lastVal bg (upTo l e))) := by
    unfold rightEdge keysIncreasing; split_ifs <;> simp
  unfold mergedTable keysIncreasing
  rw [List.pairwise_append, List.pairwise_append, List.pairwise_append]
  refine ⟨⟨⟨keysIncreasing_filter l _ hs, hLEs, ?_⟩, hREs, ?_⟩, keysIncreasing_filter l _ hs, ?_⟩
  · intro p hp q hq
    rw [hLE q hq]; exact mem_below hp
  · intro p hp q hq
    rw [hRE q hq]
    rcases List.mem_append.1 hp with h | h
    · exact lt_trans (mem_below h) hbe
    · rw [hLE p h]; exact hbe
  · intro p hp q hq
    have hq2 : e < q.1 := mem_above hq
    rcases List.mem_append.1 hp with h | h
    · rcases List.mem_append.1 h with h | h
      · exact lt_trans (lt_trans (mem_below h) hbe) hq2
      · rw [hLE p h]; exact lt_trans hbe hq2
    · rw [hRE p h]; exact hq2

theorem isCanonicalLoop_append (bg : V) (A B : List (K × V)) :
    isCanonicalLoop bg (A ++ B)
      = (isCanonicalLoop bg A && isCanonicalLoop (lastVal bg A) B) := by
  induction A generalizing bg with
  | nil => simp [isCanonicalLoop, lastVal]
  | cons a t ih =>
    by_cases h : a.2 = bg
    · simp [isCanonicalLoop, h]
    · simp [isCanonicalLoop, h, lastVal, ih a.2]

theorem isCanonicalLoop_leftEdge (b : K) (v vp : V) :
    isCanonicalLoop vp (leftEdge b v vp) = true := by
  unfold leftEdge
  by_cases h : v = vp
  · simp [h, isCanonicalLoop]
  · simp [h, isCanonicalLoop]

theorem isCanonicalLoop_rightEdge (e : K) (v ve : V) :
    isCanonicalLoop v (rightEdge e v ve) = true := by
  unfold rightEdge
  by_cases h : v = ve
  · simp [h, isCanonicalLoop]
  · have h2 : ¬ ve = v := fun h3 => h h3.symm
    simp [h, h2, isCanonicalLoop]

theorem lastVal_mergedTable (bg : V) (l : List (K × V)) (b e : K) (v : V)
    (hs : keysIncreasing l) :
    lastVal bg (mergedTable bg l b e v) = lastVal bg l := by
  unfold mergedTable
  rw [lastVal_append, lastVal_append, lastVal_append, lastVal_leftEdge, lastVal_rightEdge,
    ← lastVal_append, ← split_upTo_above l hs e]

theorem isCanonical_mergedTable (bg : V) (l : List (K × V)) (b e : K) (v : V)
    (hs : keysIncreasing l) (hc : isCanonicalLoop bg l = true) :
    isCanonicalLoop bg (mergedTable bg l b e v) = true := by
  have h1 : isCanonicalLoop bg (below l b) = true := by
    have h := hc
    rw [split_below l hs b, isCanonicalLoop_append] at h
    exact (Bool.and_eq_true _ _ ▸ h).1
  have h2 : isCanonicalLoop (lastVal bg (upTo l e)) (above l e) = true := by
    have h := hc
    rw [split_upTo_above l hs e, isCanonicalLoop_append] at h
    exact (Bool.and_eq_true _ _ ▸ h).2
  unfold mergedTable
  simp only [isCanonicalLoop_append, lastVal_append, lastVal_leftEdge, lastVal_rightEdge, h1,
    h2, isCanonicalLoop_leftEdge, isCanonicalLoop_rightEdge, Bool.and_self]

theorem assign_empty_range (m : interval_map K V) (b e : K) (v : V) (h : ¬ b < e) :
    assign m b e v = some m := by
  unfold assign
  rw [if_pos h]

theorem wellFormed_ctor (bg : V) : WellFormed (ctor bg : interval_map K V) :=
  ⟨List.Pairwise.nil, rfl, rfl⟩

theorem assign_wellFormed (m : interval_map K V) (b e : K) (v : V) (h : WellFormed m) :
    ∃ m1, assign m b e v = some m1 ∧ m1.m_valBegin = m.m_valBegin ∧ WellFormed m1 := by
  obtain ⟨bg, l⟩ := m
  obtain ⟨hs, hc, hl⟩ := h
  by_cases hbe : b < e
  · refine ⟨⟨bg, mergedTable bg l b e v⟩, assign_increasing bg l b e v hs hbe, rfl, ?_, ?_, ?_⟩
    · exact keysIncreasing_mergedTable bg l b e v hs hbe
    · exact isCanonical_mergedTable bg l b e v hs hc
    · exact (lastVal_mergedTable bg l b e v hs).trans hl
  · exact ⟨⟨bg, l⟩, assign_empty_range _ b e v hbe, rfl, hs, hc, hl⟩

theorem assignAll_wellFormed (m : interval_map K V) (calls : List (K × K × V))
    (h : WellFormed m) :
    ∃ m1, assignAll m calls = some m1 ∧ m1.m_valBegin = m.m_valBegin ∧ WellFormed m1 := by
  induction calls generalizing m with
  | nil => exact ⟨m, rfl, rfl, h⟩
  | cons c cs ih =>
    obtain ⟨m1, h1, hb1, hw1⟩ := assign_wellFormed m c.1 c.2.1 c.2.2 h
    obtain ⟨m2, h2, hb2, hw2⟩ := ih m1 hw1
    refine ⟨m2, ?_, hb2.trans hb1, hw2⟩
    simp only [assignAll, h1, Option.some_bind, h2]

/-! ## Uniqueness and minimality of the canonical table -/

theorem lookup_all_above (x : V) (t : List (K × V)) (k : K) (h : ∀ p ∈ t, k < p.1) :
    lookup ⟨x, t⟩ k = some x := by
  cases t with
  | nil => rfl
  | cons a t => rw [lookup_cons, if_pos (h a (List.mem_cons_self _ _))]

theorem lookup_head (bg : V) (a : K × V) (t : List (K × V)) (hs : keysIncreasing (a :: t)) :
    lookup ⟨bg, a :: t⟩ a.1 = some a.2 := by
  rw [lookup_cons, if_neg (lt_irrefl _)]
  exact lookup_all_above a.2 t a.1 (List.pairwise_cons.1 hs).1

theorem lookup_tail_eq (bg : V) (a : K × V) (t1 t2 : List (K × V))
    (hs1 : keysIncreasing (a :: t1)) (hs2 : keysIncreasing (a :: t2))
    (h : ∀ k, lookup ⟨bg, a :: t1⟩ k = lookup ⟨bg, a :: t2⟩ k) (k : K) :
    lookup ⟨a.2, t1⟩ k = lookup ⟨a.2, t2⟩ k := by
  by_cases hk : k < a.1
  · rw [lookup_all_above a.2 t1 k (fun p hp => lt_trans hk ((List.pairwise_cons.1 hs1).1 p hp)),
      lookup_all_above a.2 t2 k (fun p hp => lt_trans hk ((List.pairwise_cons.1 hs2).1 p hp))]
  · have := h k
    rw [lookup_cons, lookup_cons, if_neg hk, if_neg hk] at this
    exact this

theorem canonical_unique (bg : V) (l1 l2 : List (K × V))
    (hs1 : keysIncreasing l1) (hs2 : keysIncreasing l2)
    (hc1 : isCanonicalLoop bg l1 = true) (hc2 : isCanonicalLoop bg l2 = true)
    (h : ∀ k, lookup ⟨bg, l1⟩ k = lookup ⟨bg, l2⟩ k) : l1 = l2 := by
  induction l1 generalizing bg l2 with
  | nil =>
    cases l2 with
    | nil => rfl
    | cons a t =>
      exfalso
      have ha : ¬ a.2 = bg := by
        intro hab; simp [isCanonicalLoop, hab] at hc2
      have := h a.1
      rw [lookup_head bg a t hs2] at this
      have h2 : bg = a.2 := by simpa [lookup, upper_bound, valueBefore] using this
      exact ha h2.symm
  | cons a1 t1 ih =>
    have ha1 : ¬ a1.2 = bg := by
      intro hab; simp [isCanonicalLoop, hab] at hc1
    have hc1t : isCanonicalLoop a1.2 t1 = true := by
      simpa [isCanonicalLoop, ha1] using hc1
    cases l2 with
    | nil =>
      exfalso
      have := h a1.1
      rw [lookup_head bg a1 t1 hs1] at this
      have h2 : a1.2 = bg := by simpa [lookup, upper_bound, valueBefore] using this
      exact ha1 h2
    | cons a2 t2 =>
      have ha2 : ¬ a2.2 = bg := by
        intro hab; simp [isCanonicalLoop, hab] at hc2
      have hc2t : isCanonicalLoop a2.2 t2 = true := by
        simpa [isCanonicalLoop, ha2] using hc2
      have hk1 : ¬ a1.1 < a2.1 := by
        intro hlt
        have := h a1.1
        rw [lookup_head bg a1 t1 hs1, lookup_cons, if_pos hlt] at this
        exact ha1 (Option.some.inj this)
      have hk2 : ¬ a2.1 < a1.1 := by
        intro hlt
        have := h a2.1
        rw [lookup_head bg a2 t2 hs2, lookup_cons, if_pos hlt] at this
        exact ha2 (Option.some.inj this).symm
      have hkey : a1.1 = a2.1 := le_antisymm (not_lt.1 hk2) (not_lt.1 hk1)
      have hval : a1.2 = a2.2 := by
        have := h a1.1
        rw [lookup_head bg a1 t1 hs1, hkey, lookup_head bg a2 t2 hs2] at this
        exact Option.some.inj this
      have ha : a1 = a2 := Prod.ext hkey hval
      subst ha
      have ht := ih a1.2 t2 (List.pairwise_cons.1 hs1).2 (List.pairwise_cons.1 hs2).2 hc1t hc2t
        (lookup_tail_eq bg a1 t1 t2 hs1 hs2 h)
      rw [ht]

theorem dropRepeats_sublist (bg : V) (l : List (K × V)) : (dropRepeats bg l).Sublist l := by
  induction l generalizing bg with
  | nil => exact List.Sublist.slnil
  | cons a t ih =>
    by_cases h : a.2 = bg
    · simp only [dropRepeats, if_pos h]
      exact List.Sublist.cons a (ih bg)
    · simp only [dropRepeats, if_neg h]
      exact List.Sublist.cons₂ a (ih a.2)

theorem dropRepeats_canonical (bg : V) (l : List (K × V)) :
    isCanonicalLoop bg (dropRepeats bg l) = true := by
  induction l generalizing bg with
  | nil => rfl
  | cons a t ih =>
    by_cases h : a.2 = bg
    · simp only [dropRepeats, if_pos h]; exact ih bg
    · simp only [dropRepeats, if_neg h, isCanonicalLoop]; exact ih a.2

theorem lookup_dropRepeats (bg : V) (l : List (K × V)) (k : K) (hs : keysIncreasing l) :
    lookup ⟨bg, dropRepeats bg l⟩ k = lookup ⟨bg, l⟩ k := by
  induction l generalizing bg with
  | nil => rfl
  | cons a t ih =>
    have hts : keysIncreasing t := (List.pairwise_cons.1 hs).2
    have hat : ∀ q ∈ t, a.1 < q.1 := (List.pairwise_cons.1 hs).1
    by_cases h : a.2 = bg
    · simp only [dropRepeats, if_pos h]
      rw [ih bg hts, lookup_cons, h]
      by_cases hk : k < a.1
      · rw [if_pos hk]
        exact lookup_all_above bg t k (fun p hp => lt_trans hk (hat p hp))
      · rw [if_neg hk]
    · simp only [dropRepeats, if_neg h]
      rw [lookup_cons, lookup_cons, ih a.2 hts]

theorem canonical_minimal (bg : V) (l1 l2 : List (K × V))
    (hs1 : keysIncreasing l1) (hs2 : keysIncreasing l2)
    (hc1 : isCanonicalLoop bg l1 = true)
    (h : ∀ k, lookup ⟨bg, l1⟩ k = lookup ⟨bg, l2⟩ k) : l1.length ≤ l2.length := by
  have hsub := dropRepeats_sublist bg l2
  have heq : l1 = dropRepeats bg l2 :=
    canonical_unique bg l1 (dropRepeats bg l2) hs1 (List.Pairwise.sublist hsub hs2) hc1
      (dropRepeats_canonical bg l2)
      (fun k => (h k).trans (lookup_dropRepeats bg l2 k hs2).symm)
  rw [heq]
  exact hsub.length_le

theorem isCanonicalLoop_iff_chain (bg : V) (l : List (K × V)) :
    isCanonicalLoop bg l = true ↔ List.Chain (fun x y => y ≠ x) bg (l.map Prod.snd) := by
  induction l generalizing bg with
  | nil => simp [isCanonicalLoop]
  | cons a t ih =>
    by_cases h : a.2 = bg
    · simp [isCanonicalLoop, h]
    · simp [isCanonicalLoop, h, ih a.2]

theorem wellFormed_size (m : interval_map K V) (h : WellFormed m) : GetSize m ≠ 1 := by
  obtain ⟨bg, l⟩ := m
  obtain ⟨_, hc, hl⟩ := h
  intro h1
  match l, h1 with
  | [a], _ =>
    have hl2 : a.2 = bg := hl
    simp [isCanonical, isCanonicalLoop, hl2] at hc

theorem lookup_greatest (bg : V) (l : List (K × V)) (k : K) (hs : keysIncreasing l)
    (p : K × V) (hp : p ∈ l) (hpk : p.1 ≤ k) (hmax : ∀ q ∈ l, q.1 ≤ k → q.1 ≤ p.1) :
    lookup ⟨bg, l⟩ k = some p.2 := by
  rw [lookup_increasing bg l k hs]
  have hpu : p ∈ upTo l k := List.mem_filter.2 ⟨hp, by simpa using hpk⟩
  have hus : keysIncreasing (upTo l k) := keysIncreasing_filter l _ hs
  rcases eq_nil_or_snoc (upTo l k) with h0 | ⟨U, q, hU⟩
  · rw [h0] at hpu; simp at hpu
  · rw [hU] at hpu hus ⊢
    rw [lastVal_concat]
    have hq : q ∈ upTo l k := by rw [hU]; simp
    have hql : q ∈ l := (List.mem_filter.1 hq).1
    have hqp : q.1 ≤ p.1 := hmax q hql (not_lt.1 (mem_upTo hq))
    rcases List.mem_append.1 hpu with h | h
    · have hlt : p.1 < q.1 := (List.pairwise_append.1 hus).2.2 p h q (by simp)
      exact absurd hlt (not_lt_of_ge hqp)
    · have : p = q := by simpa using h
      rw [this]

theorem lookup_none_below (bg : V) (l : List (K × V)) (k : K)
    (h : ∀ q ∈ l, ¬ q.1 ≤ k) : lookup ⟨bg, l⟩ k = some bg :=
  lookup_all_above bg l k (fun q hq => not_le.1 (h q hq))

end interval_map

/-! ## The properties of the specification -/

namespace interval_map

open StdMap

variable {K V : Type} [LinearOrder K] [DecidableEq V]

/-- C1 (semantic correctness of `assign`): on a table with strictly increasing
keys and for `b < e`, `assign(b, e, v)` returns, the look-up before the call
returns some value `w`, and the look-up of any key `k` after the call returns
`v` when `b <= k < e` and `w` otherwise. -/
theorem assign_lookup_correct (m : interval_map K V) (b e : K) (v : V) (k : K)
    (hs : keysIncreasing m.m_map) (hbe : b < e) :
    ∃ m1 w, assign m b e v = some m1 ∧ lookup m k = some w
      ∧ lookup m1 k = some (if b ≤ k ∧ k < e then v else w) := by
  obtain ⟨bg, l⟩ := m
  obtain ⟨w, hw⟩ := lookup_total (⟨bg, l⟩ : interval_map K V) k
  refine ⟨⟨bg, mergedTable bg l b e v⟩, w, assign_increasing bg l b e v hs hbe, hw, ?_⟩
  rw [lookup_mergedTable bg l b e v k hs hbe, hw]
  split_ifs <;> rfl

/-- Witness for C1: the table of the brute-force test (background `'A'`,
`3->'B'`, `5->'C'`, `7->'B'`, `9->'A'`), `assign(4, 8, 'D')`, key `6`. -/
theorem assign_lookup_correct_witness :
    keysIncreasing [((3 : Int), 'B'), (5, 'C'), (7, 'B'), (9, 'A')] ∧ (4 : Int) < 8
      ∧ ∃ m1 w, assign ⟨'A', [((3 : Int), 'B'), (5, 'C'), (7, 'B'), (9, 'A')]⟩ 4 8 'D' = some m1
        ∧ lookup ⟨'A', [((3 : Int), 'B'), (5, 'C'), (7, 'B'), (9, 'A')]⟩ 6 = some w
        ∧ lookup m1 6 = some (if (4 : Int) ≤ 6 ∧ (6 : Int) < 8 then 'D' else w) :=
  ⟨by decide, by decide,
    assign_lookup_correct ⟨'A', [((3 : Int), 'B'), (5, 'C'), (7, 'B'), (9, 'A')]⟩ 4 8 'D' 6
      (by decide) (by decide)⟩

/-- C2 (canonicality of every reachable state): any sequence of `assign` calls
on a freshly constructed map runs to a map on which `isCanonical()` is true,
that is, the stored values, read in key order after the background value,
never repeat the value before them. -/
theorem reachable_isCanonical (bg : V) (calls : List (K × K × V)) :
    ∃ m, assignAll (ctor bg) calls = some m ∧ isCanonical m = true
      ∧ List.Chain (fun x y => y ≠ x) m.m_valBegin (m.m_map.map Prod.snd) := by
  obtain ⟨m, hm, _, hw⟩ := assignAll_wellFormed (ctor bg) calls (wellFormed_ctor bg)
  exact ⟨m, hm, hw.2.1, (isCanonicalLoop_iff_chain m.m_valBegin m.m_map).1 hw.2.1⟩

/-- C3 (never exactly one breakpoint): any sequence of `assign` calls on a
freshly constructed map runs to a map whose `GetSize()` is not 1: it is 0 or at
least 2. -/
theorem reachable_size_ne_one (bg : V) (calls : List (K × K × V)) :
    ∃ m, assignAll (ctor bg) calls = some m ∧ GetSize m ≠ 1
      ∧ (GetSize m = 0 ∨ 2 ≤ GetSize m) := by
  obtain ⟨m, hm, _, hw⟩ := assignAll_wellFormed (ctor bg) calls (wellFormed_ctor bg)
  have h1 := wellFormed_size m hw
  exact ⟨m, hm, h1, by omega⟩

/-- C4 (empty or inverted range): when `!(b < e)`, `assign(b, e, v)` returns
and leaves the background value and the table as they were. -/
theorem assign_empty_range_noop (m : interval_map K V) (b e : K) (v : V) (h : ¬ b < e) :
    assign m b e v = some m :=
  assign_empty_range m b e v h

/-- Witness for C4: the table `3->'B'`, `5->'A'` with background `'A'` is
unchanged by `assign(4, 4, 'Z')`. -/
theorem assign_empty_range_noop_witness :
    ¬ (4 : Int) < 4 ∧ assign ⟨'A', [((3 : Int), 'B'), (5, 'A')]⟩ 4 4 'Z'
      = some ⟨'A', [((3 : Int), 'B'), (5, 'A')]⟩ :=
  ⟨by decide, assign_empty_range_noop ⟨'A', [((3 : Int), 'B'), (5, 'A')]⟩ 4 4 'Z' (by decide)⟩

/-- C5 (idempotence): in a state reached from construction by `assign` calls,
`assign(b, e, v)` returns a map on which the same call returns that same map
again. -/
theorem assign_idempotent (bg : V) (calls : List (K × K × V)) (m : interval_map K V)
    (b e : K) (v : V) (hm : assignAll (ctor bg) calls = some m) :
    ∃ m1, assign m b e v = some m1 ∧ assign m1 b e v = some m1 := by
  obtain ⟨m0, hm0, _, hw⟩ := assignAll_wellFormed (ctor bg) calls (wellFormed_ctor bg)
  have hmm : m0 = m := Option.some.inj (hm0.symm.trans hm)
  subst hmm
  by_cases hbe : b < e
  · obtain ⟨bg0, l⟩ := m0
    have hs := hw.1
    have hc : isCanonicalLoop bg0 l = true := hw.2.1
    have hs1 := keysIncreasing_mergedTable bg0 l b e v hs hbe
    have hc1 := isCanonical_mergedTable bg0 l b e v hs hc
    have hs2 := keysIncreasing_mergedTable bg0 (mergedTable bg0 l b e v) b e v hs1 hbe
    have hc2 := isCanonical_mergedTable bg0 (mergedTable bg0 l b e v) b e v hs1 hc1
    have heq : mergedTable bg0 (mergedTable bg0 l b e v) b e v = mergedTable bg0 l b e v := by
      apply canonical_unique bg0 _ _ hs2 hs1 hc2 hc1
      intro k
      rw [lookup_mergedTable bg0 _ b e v k hs1 hbe, lookup_mergedTable bg0 l b e v k hs hbe]
      split_ifs <;> rfl
    refine ⟨⟨bg0, mergedTable bg0 l b e v⟩, assign_increasing bg0 l b e v hs hbe, ?_⟩
    rw [assign_increasing bg0 _ b e v hs1 hbe, heq]
  · exact ⟨m0, assign_empty_range m0 b e v hbe, assign_empty_range m0 b e v hbe⟩

/-- Witness for C5: after `assign(3, 5, 'B')` and `assign(5, 7, 'C')` on
background `'A'`, `assign(4, 6, 'D')` twice is `assign(4, 6, 'D')` once. -/
theorem assign_idempotent_witness :
    assignAll (ctor 'A') [((3 : Int), 5, 'B'), (5, 7, 'C')]
        = some ⟨'A', [((3 : Int), 'B'), (5, 'C'), (7, 'A')]⟩
      ∧ ∃ m1, assign ⟨'A', [((3 : Int), 'B'), (5, 'C'), (7, 'A')]⟩ 4 6 'D' = some m1
        ∧ assign m1 4 6 'D' = some m1 :=
  ⟨by decide,
    assign_idempotent 'A' [((3 : Int), 5, 'B'), (5, 7, 'C')]
      ⟨'A', [((3 : Int), 'B'), (5, 'C'), (7, 'A')]⟩ 4 6 'D' (by decide)⟩

/-- C6 (first write into a fresh map): on a freshly constructed map with
background `X`, for `b < e` and `v` different from `X`, `assign(b, e, v)`
leaves exactly the two breakpoints `b->v` and `e->X`, and `GetSize()` is 2. -/
theorem assign_first_write (X : V) (b e : K) (v : V) (hbe : b < e) (hv : v ≠ X) :
    ∃ m1, assign (ctor X) b e v = some m1 ∧ m1.m_valBegin = X
      ∧ m1.m_map = [(b, v), (e, X)] ∧ GetSize m1 = 2 := by
  refine ⟨⟨X, [(b, v), (e, X)]⟩, ?_, rfl, rfl, rfl⟩
  have h := insertBoth_split X [] [] b e v X hbe (by simp) (by simp)
  simp only [List.nil_append, List.append_nil] at h
  unfold assign
  rw [if_neg (not_not.2 hbe)]
  simp [ctor, hv, h]

/-- Witness for C6: background `'A'`, `assign(3, 5, 'B')` gives exactly
`3->'B'`, `5->'A'`. -/
theorem assign_first_write_witness :
    (3 : Int) < 5 ∧ 'B' ≠ 'A'
      ∧ ∃ m1, assign (ctor 'A') (3 : Int) 5 'B' = some m1 ∧ m1.m_valBegin = 'A'
        ∧ m1.m_map = [((3 : Int), 'B'), (5, 'A')] ∧ GetSize m1 = 2 :=
  ⟨by decide, by decide, assign_first_write 'A' (3 : Int) 5 'B' (by decide) (by decide)⟩

/-- C7 (background absorption): on a freshly constructed map with background
`X`, `assign(b, e, X)` returns, for any `b` and `e`, and leaves the table
empty: `GetSize()` is 0. -/
theorem assign_background_absorbed (X : V) (b e : K) :
    ∃ m1, assign (ctor X) b e X = some m1 ∧ m1.m_valBegin = X
      ∧ m1.m_map = [] ∧ GetSize m1 = 0 := by
  refine ⟨ctor X, ?_, rfl, rfl, rfl⟩
  unfold assign
  by_cases hbe : b < e
  · rw [if_neg (not_not.2 hbe)]
    simp [ctor]
  · rw [if_pos hbe]

/-- C8 (look-up is total and is the reference look-up): on a table with strictly
increasing keys, `operator[](k)` returns a value; it is the value stored at the
breakpoint with the greatest key `<= k` when there is one, and the background
value when no stored key is `<= k`. -/
theorem lookup_reference (m : interval_map K V) (k : K) (hs : keysIncreasing m.m_map) :
    (∃ v, lookup m k = some v)
      ∧ (∀ p ∈ m.m_map, p.1 ≤ k → (∀ q ∈ m.m_map, q.1 ≤ k → q.1 ≤ p.1) →
          lookup m k = some p.2)
      ∧ ((∀ q ∈ m.m_map, ¬ q.1 ≤ k) → lookup m k = some m.m_valBegin) := by
  obtain ⟨bg, l⟩ := m
  exact ⟨lookup_total _ k, fun p hp hpk hmax => lookup_greatest bg l k hs p hp hpk hmax,
    fun h => lookup_none_below bg l k h⟩

/-- Witness for C8: the table `3->'B'`, `5->'C'`, `7->'A'` with background
`'A'`, looked up at key `6`. -/
theorem lookup_reference_witness :
    keysIncreasing [((3 : Int), 'B'), (5, 'C'), (7, 'A')]
      ∧ (∃ v, lookup ⟨'A', [((3 : Int), 'B'), (5, 'C'), (7, 'A')]⟩ 6 = some v)
      ∧ (∀ p ∈ [((3 : Int), 'B'), (5, 'C'), (7, 'A')], p.1 ≤ 6 →
          (∀ q ∈ [((3 : Int), 'B'), (5, 'C'), (7, 'A')], q.1 ≤ 6 → q.1 ≤ p.1) →
          lookup ⟨'A', [((3 : Int), 'B'), (5, 'C'), (7, 'A')]⟩ 6 = some p.2)
      ∧ ((∀ q ∈ [((3 : Int), 'B'), (5, 'C'), (7, 'A')], ¬ q.1 ≤ 6) →
          lookup ⟨'A', [((3 : Int), 'B'), (5, 'C'), (7, 'A')]⟩ 6 = some 'A') :=
  ⟨by decide, lookup_reference ⟨'A', [((3 : Int), 'B'), (5, 'C'), (7, 'A')]⟩ 6 (by decide)⟩

/-- C9 (uniqueness of the canonical form): two maps with the same background
value, strictly increasing keys, `isCanonical()` true, and the same
`operator[]` at every key have the same table. -/
theorem canonical_form_unique (m1 m2 : interval_map K V)
    (hbg : m1.m_valBegin = m2.m_valBegin)
    (hs1 : keysIncreasing m1.m_map) (hs2 : keysIncreasing m2.m_map)
    (hc1 : isCanonical m1 = true) (hc2 : isCanonical m2 = true)
    (h : ∀ k, lookup m1 k = lookup m2 k) : m1.m_map = m2.m_map := by
  obtain ⟨bg1, l1⟩ := m1
  obtain ⟨bg2, l2⟩ := m2
  have hb : bg1 = bg2 := hbg
  subst hb
  exact canonical_unique bg1 l1 l2 hs1 hs2 hc1 hc2 h

/-- Witness for C9: the canonical table `3->'B'`, `5->'A'` with background
`'A'`, taken twice. -/
theorem canonical_form_unique_witness :
    keysIncreasing [((3 : Int), 'B'), (5, 'A')]
      ∧ isCanonical ⟨'A', [((3 : Int), 'B'), (5, 'A')]⟩ = true
      ∧ (⟨'A', [((3 : Int), 'B'), (5, 'A')]⟩ : interval_map Int Char).m_map
          = [((3 : Int), 'B'), (5, 'A')] :=
  ⟨by decide, by decide,
    canonical_form_unique ⟨'A', [((3 : Int), 'B'), (5, 'A')]⟩ ⟨'A', [((3 : Int), 'B'), (5, 'A')]⟩
      rfl (by decide) (by decide) (by decide) (by decide) (fun _ => rfl)⟩

/-- C10 (minimality of the canonical form): a map with strictly increasing keys
and `isCanonical()` true has `GetSize()` at most that of any map with the same
background value, strictly increasing keys and the same `operator[]` at every
key. -/
theorem canonical_form_minimal (m1 m2 : interval_map K V)
    (hbg : m1.m_valBegin = m2.m_valBegin)
    (hs1 : keysIncreasing m1.m_map) (hs2 : keysIncreasing m2.m_map)
    (hc1 : isCanonical m1 = true)
    (h : ∀ k, lookup m1 k = lookup m2 k) : GetSize m1 ≤ GetSize m2 := by
  obtain ⟨bg1, l1⟩ := m1
  obtain ⟨bg2, l2⟩ := m2
  have hb : bg1 = bg2 := hbg
  subst hb
  exact canonical_minimal bg1 l1 l2 hs1 hs2 hc1 h

/-- Witness for C10: the canonical table `3->'B'`, `5->'A'` against the table
`1->'A'`, `3->'B'`, `4->'B'`, `5->'A'` with the same look-ups (background `'A'`). -/
theorem canonical_form_minimal_witness :
    keysIncreasing [((3 : Int), 'B'), (5, 'A')]
      ∧ keysIncreasing [((1 : Int), 'A'), (3, 'B'), (4, 'B'), (5, 'A')]
      ∧ isCanonical ⟨'A', [((3 : Int), 'B'), (5, 'A')]⟩ = true
      ∧ (∀ k, lookup ⟨'A', [((3 : Int), 'B'), (5, 'A')]⟩ k
          = lookup ⟨'A', [((1 : Int), 'A'), (3, 'B'), (4, 'B'), (5, 'A')]⟩ k)
      ∧ GetSize (⟨'A', [((3 : Int), 'B'), (5, 'A')]⟩ : interval_map Int Char)
          ≤ GetSize (⟨'A', [((1 : Int), 'A'), (3, 'B'), (4, 'B'), (5, 'A')]⟩ :
              interval_map Int Char) :=
  ⟨by decide, by decide, by decide,
    fun k => lookup_dropRepeats 'A' [((1 : Int), 'A'), (3, 'B'), (4, 'B'), (5, 'A')] k
      (by decide),
    canonical_form_minimal ⟨'A', [((3 : Int), 'B'), (5, 'A')]⟩
      ⟨'A', [((1 : Int), 'A'), (3, 'B'), (4, 'B'), (5, 'A')]⟩ rfl (by decide) (by decide)
      (by decide)
      (fun k => lookup_dropRepeats 'A' [((1 : Int), 'A'), (3, 'B'), (4, 'B'), (5, 'A')] k
        (by decide))⟩

end interval_map

/-! ## The entries of the table left by `assign` -/

namespace interval_map

open StdMap

variable {K V : Type} [LinearOrder K] [DecidableEq V]

theorem mem_below_iff (l : List (K × V)) (x : K) (p : K × V) :
    p ∈ below l x ↔ p ∈ l ∧ p.1 < x := by
  simp [below, List.mem_filter]

theorem mem_above_iff (l : List (K × V)) (x : K) (p : K × V) :
    p ∈ above l x ↔ p ∈ l ∧ x < p.1 := by
  simp [above, List.mem_filter]

theorem mem_leftEdge_iff (b : K) (v vp : V) (p : K × V) :
    p ∈ leftEdge b v vp ↔ v ≠ vp ∧ p = (b, v) := by
  unfold leftEdge
  by_cases h : v = vp
  · simp [h]
  · simp [h]

theorem mem_rightEdge_iff (e : K) (v ve : V) (p : K × V) :
    p ∈ rightEdge e v ve ↔ v ≠ ve ∧ p = (e, ve) := by
  unfold rightEdge
  by_cases h : v = ve
  · simp [h]
  · simp [h]

theorem mem_mergedTable (bg : V) (l : List (K × V)) (b e : K) (v : V) (p : K × V) :
    p ∈ mergedTable bg l b e v ↔
      (p ∈ l ∧ p.1 < b) ∨ (v ≠ lastVal bg (below l b) ∧ p = (b, v))
        ∨ (v ≠ lastVal bg (upTo l e) ∧ p = (e, lastVal bg (upTo l e)))
        ∨ (p ∈ l ∧ e < p.1) := by
  unfold mergedTable
  rw [List.mem_append, List.mem_append, List.mem_append, mem_below_iff, mem_above_iff,
    mem_leftEdge_iff, mem_rightEdge_iff]
  tauto

theorem mem_mergedTable_left (bg : V) (l : List (K × V)) (b e : K) (v x : V) (hbe : b < e) :
    (b, x) ∈ mergedTable bg l b e v ↔ v ≠ lastVal bg (below l b) ∧ x = v := by
  rw [mem_mergedTable]
  constructor
  · rintro (⟨_, h⟩ | ⟨h1, h2⟩ | ⟨_, h2⟩ | ⟨_, h⟩)
    · exact absurd h (lt_irrefl b)
    · exact ⟨h1, (Prod.mk.inj h2).2⟩
    · exact absurd (Prod.mk.inj h2).1 (ne_of_lt hbe)
    · exact absurd h (not_lt_of_gt hbe)
  · rintro ⟨h1, rfl⟩
    exact Or.inr (Or.inl ⟨h1, rfl⟩)

theorem mem_mergedTable_right (bg : V) (l : List (K × V)) (b e : K) (v x : V) (hbe : b < e) :
    (e, x) ∈ mergedTable bg l b e v ↔ v ≠ lastVal bg (upTo l e) ∧ x = lastVal bg (upTo l e) := by
  rw [mem_mergedTable]
  constructor
  · rintro (⟨_, h⟩ | ⟨_, h2⟩ | ⟨h1, h2⟩ | ⟨_, h⟩)
    · exact absurd h (not_lt_of_gt hbe)
    · exact absurd (Prod.mk.inj h2).1 (ne_of_gt hbe)
    · exact ⟨h1, (Prod.mk.inj h2).2⟩
    · exact absurd h (lt_irrefl e)
  · rintro ⟨h1, rfl⟩
    exact Or.inr (Or.inr (Or.inl ⟨h1, rfl⟩))

theorem mem_mergedTable_outside (bg : V) (l : List (K × V)) (b e : K) (v : V) (k : K) (x : V)
    (hbe : b < e) (hk : k < b ∨ e < k) :
    (k, x) ∈ mergedTable bg l b e v ↔ (k, x) ∈ l := by
  rw [mem_mergedTable]
  constructor
  · rintro (⟨h, _⟩ | ⟨_, h2⟩ | ⟨_, h2⟩ | ⟨h, _⟩)
    · exact h
    · have hkb : k = b := (Prod.mk.inj h2).1
      rcases hk with h | h
      · exact absurd hkb (ne_of_lt h)
      · exact absurd hkb (ne_of_gt (lt_trans hbe h))
    · have hke : k = e := (Prod.mk.inj h2).1
      rcases hk with h | h
      · exact absurd hke (ne_of_lt (lt_trans h hbe))
      · exact absurd hke (ne_of_gt h)
    · exact h
  · intro h
    rcases hk with hk | hk
    · exact Or.inl ⟨h, hk⟩
    · exact Or.inr (Or.inr (Or.inr ⟨h, hk⟩))

theorem mem_mergedTable_interior (bg : V) (l : List (K × V)) (b e : K) (v : V) (p : K × V)
    (hp : p ∈ mergedTable bg l b e v) : ¬ (b < p.1 ∧ p.1 < e) := by
  rintro ⟨h1, h2⟩
  rcases (mem_mergedTable bg l b e v p).1 hp with ⟨_, h⟩ | ⟨_, h⟩ | ⟨_, h⟩ | ⟨_, h⟩
  · exact lt_asymm h h1
  · rw [h] at h1; exact lt_irrefl b h1
  · rw [h] at h2; exact lt_irrefl e h2
  · exact lt_asymm h h2

theorem lastVal_below_greatest (bg : V) (l : List (K × V)) (b : K) (hs : keysIncreasing l) :
    (∃ p ∈ l, p.1 < b ∧ (∀ q ∈ l, q.1 < b → q.1 ≤ p.1) ∧ lastVal bg (below l b) = p.2)
      ∨ ((∀ q ∈ l, ¬ q.1 < b) ∧ lastVal bg (below l b) = bg) := by
  have hbs : keysIncreasing (below l b) := keysIncreasing_filter l _ hs
  rcases eq_nil_or_snoc (below l b) with h0 | ⟨U, p, hU⟩
  · right
    refine ⟨?_, by rw [h0]; rfl⟩
    intro q hq hqb
    have : q ∈ below l b := (mem_below_iff l b q).2 ⟨hq, hqb⟩
    rw [h0] at this
    simp at this
  · left
    have hp : p ∈ below l b := by rw [hU]; simp
    have hp2 := (mem_below_iff l b p).1 hp
    refine ⟨p, hp2.1, hp2.2, ?_, by rw [hU, lastVal_concat]⟩
    intro q hq hqb
    have hqm : q ∈ below l b := (mem_below_iff l b q).2 ⟨hq, hqb⟩
    rw [hU] at hqm hbs
    rcases List.mem_append.1 hqm with h | h
    · exact le_of_lt ((List.pairwise_append.1 hbs).2.2 q h p (by simp))
    · have : q = p := by simpa using h
      rw [this]

theorem lastVal_of_getLast (bg : V) (l : List (K × V)) (p : K × V)
    (h : l.getLast? = some p) : lastVal bg l = p.2 := by
  rcases eq_nil_or_snoc l with rfl | ⟨U, q, rfl⟩
  · simp at h
  · rw [lastVal_concat]
    have : q = p := by simpa using h
    rw [this]

theorem below_eq_self (l : List (K × V)) (x : K) (h : ∀ p ∈ l, p.1 < x) : below l x = l := by
  unfold below
  rw [List.filter_eq_self]
  intro p hp
  simpa using h p hp

theorem below_eq_nil (l : List (K × V)) (x : K) (h : ∀ p ∈ l, ¬ p.1 < x) : below l x = [] := by
  unfold below
  rw [List.filter_eq_nil_iff]
  intro p hp
  simpa using h p hp

theorem upTo_eq_self (l : List (K × V)) (x : K) (h : ∀ p ∈ l, ¬ x < p.1) : upTo l x = l := by
  unfold upTo
  rw [List.filter_eq_self]
  intro p hp
  simpa using h p hp

theorem above_eq_nil (l : List (K × V)) (x : K) (h : ∀ p ∈ l, ¬ x < p.1) : above l x = [] := by
  unfold above
  rw [List.filter_eq_nil_iff]
  intro p hp
  simpa using h p hp

theorem keysIncreasing_nodup (l : List (K × V)) (hs : keysIncreasing l) :
    (l.map Prod.fst).Nodup := by
  unfold List.Nodup
  rw [List.pairwise_map]
  exact List.Pairwise.imp (fun h => ne_of_lt h) hs

theorem assign_keysIncreasing (m : interval_map K V) (b e : K) (v : V)
    (hs : keysIncreasing m.m_map) :
    ∃ m1, assign m b e v = some m1 ∧ m1.m_valBegin = m.m_valBegin
      ∧ keysIncreasing m1.m_map := by
  obtain ⟨bg, l⟩ := m
  by_cases hbe : b < e
  · exact ⟨⟨bg, mergedTable bg l b e v⟩, assign_increasing bg l b e v hs hbe, rfl,
      keysIncreasing_mergedTable bg l b e v hs hbe⟩
  · exact ⟨⟨bg, l⟩, assign_empty_range _ b e v hbe, rfl, hs⟩

theorem isCanonicalLoop_iff_adjacent (bg : V) (l : List (K × V)) :
    isCanonicalLoop bg l = true ↔
      (∀ p, l.head? = some p → p.2 ≠ bg)
        ∧ ∀ i p q, l.get? i = some p → l.get? (i + 1) = some q → q.2 ≠ p.2 := by
  induction l generalizing bg with
  | nil => simp [isCanonicalLoop]
  | cons a t ih =>
    by_cases h : a.2 = bg
    · simp [isCanonicalLoop, h]
    · simp only [isCanonicalLoop, if_neg h, ih a.2]
      constructor
      · rintro ⟨h1, h2⟩
        refine ⟨?_, ?_⟩
        · intro p hp
          have : a = p := by simpa using hp
          rw [← this]; exact h
        · intro i p q hp hq
          cases i with
          | zero =>
            have hpa : a = p := by simpa using hp
            have hq2 : t.head? = some q := by
              cases t with
              | nil => simp at hq
              | cons c t2 => simpa using hq
            rw [← hpa]; exact h1 q hq2
          | succ n =>
            exact h2 n p q (by simpa using hp) (by simpa using hq)
      · rintro ⟨_, h2⟩
        refine ⟨?_, ?_⟩
        · intro q hq
          have hq2 : (a :: t).get? (0 + 1) = some q := by
            cases t with
            | nil => simp at hq
            | cons c t2 => simpa using hq
          exact h2 0 a q (by simp) hq2
        · intro i p q hp hq
          exact h2 (i + 1) p q (by simpa using hp) (by simpa using hq)

end interval_map

/-! ## The properties of the specification, continued -/

namespace interval_map

open StdMap

variable {K V : Type} [LinearOrder K] [DecidableEq V]

/-- C11 (`isCanonical()` decides the adjacency invariant): `isCanonical()` is
true exactly when the first stored value differs from the background value and
every later stored value differs from the value stored just before it; it is
true on the empty table. -/
theorem isCanonical_decides_adjacency (m : interval_map K V) :
    (isCanonical m = true ↔
      (∀ p, m.m_map.head? = some p → p.2 ≠ m.m_valBegin)
        ∧ ∀ i p q, m.m_map.get? i = some p → m.m_map.get? (i + 1) = some q → q.2 ≠ p.2)
      ∧ isCanonical (⟨m.m_valBegin, []⟩ : interval_map K V) = true :=
  ⟨isCanonicalLoop_iff_adjacent m.m_valBegin m.m_map, rfl⟩

/-- C12 (key order is preserved): on a table with strictly increasing keys,
`assign(b, e, v)` returns, for any `b`, `e`, `v`, and the table it leaves has
strictly increasing keys, hence no duplicate key. -/
theorem assign_preserves_key_order (m : interval_map K V) (b e : K) (v : V)
    (hs : keysIncreasing m.m_map) :
    ∃ m1, assign m b e v = some m1 ∧ keysIncreasing m1.m_map
      ∧ (m1.m_map.map Prod.fst).Nodup := by
  obtain ⟨m1, h1, _, h2⟩ := assign_keysIncreasing m b e v hs
  exact ⟨m1, h1, h2, keysIncreasing_nodup m1.m_map h2⟩

/-- Witness for C12: the table `3->'B'`, `5->'C'`, `7->'A'` with background
`'A'` and `assign(4, 6, 'D')`. -/
theorem assign_preserves_key_order_witness :
    keysIncreasing [((3 : Int), 'B'), (5, 'C'), (7, 'A')]
      ∧ ∃ m1, assign ⟨'A', [((3 : Int), 'B'), (5, 'C'), (7, 'A')]⟩ 4 6 'D' = some m1
        ∧ keysIncreasing m1.m_map ∧ (m1.m_map.map Prod.fst).Nodup :=
  ⟨by decide,
    assign_preserves_key_order ⟨'A', [((3 : Int), 'B'), (5, 'C'), (7, 'A')]⟩ 4 6 'D'
      (by decide)⟩

/-- C13 (left edge placement): on a table with strictly increasing keys and
for `b < e`, let `w` be the value in force just below `b` before the call (the
value of the entry with the greatest key `< b`, the background value when
there is none).  After `assign(b, e, v)` the table has an entry with key `b`
exactly when `v` differs from `w`, and such an entry has value `v`. -/
theorem left_edge_placement (m : interval_map K V) (b e : K) (v : V)
    (hs : keysIncreasing m.m_map) (hbe : b < e) :
    ∃ m1 w, assign m b e v = some m1
      ∧ ((∃ p ∈ m.m_map, p.1 < b ∧ (∀ q ∈ m.m_map, q.1 < b → q.1 ≤ p.1) ∧ w = p.2)
          ∨ ((∀ q ∈ m.m_map, ¬ q.1 < b) ∧ w = m.m_valBegin))
      ∧ ((∃ x, (b, x) ∈ m1.m_map) ↔ v ≠ w)
      ∧ ∀ x, (b, x) ∈ m1.m_map → x = v := by
  obtain ⟨bg, l⟩ := m
  refine ⟨⟨bg, mergedTable bg l b e v⟩, lastVal bg (below l b),
    assign_increasing bg l b e v hs hbe, ?_, ?_, ?_⟩
  · rcases lastVal_below_greatest bg l b hs with ⟨p, hp, hpb, hmax, hv⟩ | ⟨hnone, hv⟩
    · exact Or.inl ⟨p, hp, hpb, hmax, hv⟩
    · exact Or.inr ⟨hnone, hv⟩
  · constructor
    · rintro ⟨x, hx⟩
      exact ((mem_mergedTable_left bg l b e v x hbe).1 hx).1
    · intro h
      exact ⟨v, (mem_mergedTable_left bg l b e v v hbe).2 ⟨h, rfl⟩⟩
  · intro x hx
    exact ((mem_mergedTable_left bg l b e v x hbe).1 hx).2

/-- Witness for C13: the table `3->'B'`, `5->'C'`, `7->'A'` with background
`'A'` and `assign(4, 6, 'D')`. -/
theorem left_edge_placement_witness :
    keysIncreasing [((3 : Int), 'B'), (5, 'C'), (7, 'A')] ∧ (4 : Int) < 6
      ∧ ∃ m1 w, assign ⟨'A', [((3 : Int), 'B'), (5, 'C'), (7, 'A')]⟩ 4 6 'D' = some m1
        ∧ ((∃ p ∈ [((3 : Int), 'B'), (5, 'C'), (7, 'A')], p.1 < 4
              ∧ (∀ q ∈ [((3 : Int), 'B'), (5, 'C'), (7, 'A')], q.1 < 4 → q.1 ≤ p.1) ∧ w = p.2)
            ∨ ((∀ q ∈ [((3 : Int), 'B'), (5, 'C'), (7, 'A')], ¬ q.1 < 4) ∧ w = 'A'))
        ∧ ((∃ x, ((4 : Int), x) ∈ m1.m_map) ↔ 'D' ≠ w)
        ∧ ∀ x, ((4 : Int), x) ∈ m1.m_map → x = 'D' :=
  ⟨by decide, by decide,
    left_edge_placement ⟨'A', [((3 : Int), 'B'), (5, 'C'), (7, 'A')]⟩ 4 6 'D'
      (by decide) (by decide)⟩

/-- C14 (right edge placement): on a table with strictly increasing keys and
for `b < e`, let `w` be what `operator[](e)` returns before the call.  After
`assign(b, e, v)` the table has an entry with key `e` exactly when `w` differs
from `v`, and such an entry has value `w`. -/
theorem right_edge_placement (m : interval_map K V) (b e : K) (v : V)
    (hs : keysIncreasing m.m_map) (hbe : b < e) :
    ∃ m1 w, assign m b e v = some m1 ∧ lookup m e = some w
      ∧ ((∃ x, (e, x) ∈ m1.m_map) ↔ w ≠ v)
      ∧ ∀ x, (e, x) ∈ m1.m_map → x = w := by
  obtain ⟨bg, l⟩ := m
  refine ⟨⟨bg, mergedTable bg l b e v⟩, lastVal bg (upTo l e),
    assign_increasing bg l b e v hs hbe, lookup_increasing bg l e hs, ?_, ?_⟩
  · constructor
    · rintro ⟨x, hx⟩
      exact fun h => ((mem_mergedTable_right bg l b e v x hbe).1 hx).1 h.symm
    · intro h
      exact ⟨_, (mem_mergedTable_right bg l b e v _ hbe).2 ⟨fun h2 => h h2.symm, rfl⟩⟩
  · intro x hx
    exact ((mem_mergedTable_right bg l b e v x hbe).1 hx).2

/-- Witness for C14: the table `3->'B'`, `5->'C'`, `7->'A'` with background
`'A'` and `assign(4, 6, 'D')`. -/
theorem right_edge_placement_witness :
    keysIncreasing [((3 : Int), 'B'), (5, 'C'), (7, 'A')] ∧ (4 : Int) < 6
      ∧ ∃ m1 w, assign ⟨'A', [((3 : Int), 'B'), (5, 'C'), (7, 'A')]⟩ 4 6 'D' = some m1
        ∧ lookup ⟨'A', [((3 : Int), 'B'), (5, 'C'), (7, 'A')]⟩ 6 = some w
        ∧ ((∃ x, ((6 : Int), x) ∈ m1.m_map) ↔ w ≠ 'D')
        ∧ ∀ x, ((6 : Int), x) ∈ m1.m_map → x = w :=
  ⟨by decide, by decide,
    right_edge_placement ⟨'A', [((3 : Int), 'B'), (5, 'C'), (7, 'A')]⟩ 4 6 'D'
      (by decide) (by decide)⟩

/-- C15 (interior cleanup): on a table with strictly increasing keys and for
`b < e`, the table left by `assign(b, e, v)` has no entry whose key lies
strictly between `b` and `e`. -/
theorem interior_cleanup (m : interval_map K V) (b e : K) (v : V)
    (hs : keysIncreasing m.m_map) (hbe : b < e) :
    ∃ m1, assign m b e v = some m1 ∧ ∀ p ∈ m1.m_map, ¬ (b < p.1 ∧ p.1 < e) := by
  obtain ⟨bg, l⟩ := m
  exact ⟨⟨bg, mergedTable bg l b e v⟩, assign_increasing bg l b e v hs hbe,
    fun p hp => mem_mergedTable_interior bg l b e v p hp⟩

/-- Witness for C15: the table `3->'B'`, `5->'C'`, `7->'B'`, `9->'A'` with
background `'A'` and `assign(4, 8, 'D')`. -/
theorem interior_cleanup_witness :
    keysIncreasing [((3 : Int), 'B'), (5, 'C'), (7, 'B'), (9, 'A')] ∧ (4 : Int) < 8
      ∧ ∃ m1, assign ⟨'A', [((3 : Int), 'B'), (5, 'C'), (7, 'B'), (9, 'A')]⟩ 4 8 'D' = some m1
        ∧ ∀ p ∈ m1.m_map, ¬ ((4 : Int) < p.1 ∧ p.1 < 8) :=
  ⟨by decide, by decide,
    interior_cleanup ⟨'A', [((3 : Int), 'B'), (5, 'C'), (7, 'B'), (9, 'A')]⟩ 4 8 'D'
      (by decide) (by decide)⟩

/-- C16 (write beyond the last breakpoint): on a non-empty table with strictly
increasing keys, all of them less than `b`, and for `b < e`: when the value
stored at the last entry equals `v`, `assign(b, e, v)` leaves the map as it was;
otherwise it leaves the old table followed by the two entries `b->v` and
`e->` the old last value. -/
theorem write_beyond_last (m : interval_map K V) (b e : K) (v : V)
    (hne : m.m_map ≠ []) (hs : keysIncreasing m.m_map)
    (hlt : ∀ p ∈ m.m_map, p.1 < b) (hbe : b < e) :
    ∃ p, m.m_map.getLast? = some p
      ∧ (p.2 = v → assign m b e v = some m)
      ∧ (p.2 ≠ v →
          assign m b e v = some ⟨m.m_valBegin, m.m_map ++ [(b, v), (e, p.2)]⟩) := by
  obtain ⟨bg, l⟩ := m
  rcases eq_nil_or_snoc l with h0 | ⟨U, p, hU⟩
  · exact absurd h0 hne
  · have hlast : l.getLast? = some p := by rw [hU]; simp
    have hlv : lastVal bg l = p.2 := lastVal_of_getLast bg l p hlast
    have hbelow : below l b = l := below_eq_self l b hlt
    have hle : ∀ q ∈ l, ¬ e < q.1 := fun q hq => not_lt_of_gt (lt_trans (hlt q hq) hbe)
    have hupTo : upTo l e = l := upTo_eq_self l e hle
    have habove : above l e = [] := above_eq_nil l e hle
    have hres := assign_increasing bg l b e v hs hbe
    unfold mergedTable at hres
    rw [hbelow, hupTo, habove, hlv] at hres
    refine ⟨p, hlast, ?_, ?_⟩
    · intro hv
      rw [hres]
      simp [leftEdge, rightEdge, hv]
    · intro hv
      have hv2 : ¬ v = p.2 := fun h => hv h.symm
      rw [hres]
      simp [leftEdge, rightEdge, hv2]

/-- Witness for C16: the table `3->'B'`, `5->'A'` with background `'A'` and
`assign(7, 9, 'C')`. -/
theorem write_beyond_last_witness :
    [((3 : Int), 'B'), (5, 'A')] ≠ [] ∧ keysIncreasing [((3 : Int), 'B'), (5, 'A')]
      ∧ (∀ p ∈ [((3 : Int), 'B'), (5, 'A')], p.1 < 7) ∧ (7 : Int) < 9
      ∧ ∃ p, [((3 : Int), 'B'), (5, 'A')].getLast? = some p
        ∧ (p.2 = 'C' → assign ⟨'A', [((3 : Int), 'B'), (5, 'A')]⟩ 7 9 'C'
            = some ⟨'A', [((3 : Int), 'B'), (5, 'A')]⟩)
        ∧ (p.2 ≠ 'C' → assign ⟨'A', [((3 : Int), 'B'), (5, 'A')]⟩ 7 9 'C'
            = some ⟨'A', [((3 : Int), 'B'), (5, 'A')] ++ [((7 : Int), 'C'), (9, p.2)]⟩) :=
  ⟨by decide, by decide, by decide, by decide,
    write_beyond_last ⟨'A', [((3 : Int), 'B'), (5, 'A')]⟩ 7 9 'C'
      (by decide) (by decide) (by decide) (by decide)⟩

/-- C17 (the trailing value is the background value): any sequence of `assign`
calls on a freshly constructed map runs to a map in which the value of the last
entry, if there is one, is the background value, and every key at or above the
last key looks up to the background value. -/
theorem reachable_trailing_background (bg : V) (calls : List (K × K × V)) :
    ∃ m, assignAll (ctor bg) calls = some m ∧ m.m_valBegin = bg
      ∧ ∀ p, m.m_map.getLast? = some p →
          p.2 = bg ∧ ∀ k, p.1 ≤ k → lookup m k = some bg := by
  obtain ⟨m, hm, hbg, hw⟩ := assignAll_wellFormed (ctor bg) calls (wellFormed_ctor bg)
  obtain ⟨bg0, l⟩ := m
  have hb : bg0 = bg := hbg
  subst hb
  obtain ⟨hs, _, hl⟩ := hw
  refine ⟨⟨bg0, l⟩, hm, rfl, ?_⟩
  intro p hp
  have hpv : p.2 = bg0 := (lastVal_of_getLast bg0 l p hp).symm.trans hl
  refine ⟨hpv, ?_⟩
  intro k hk
  have hall : ∀ q ∈ l, ¬ k < q.1 := by
    intro q hq
    rcases eq_nil_or_snoc l with h0 | ⟨U, r, hU⟩
    · rw [h0] at hq; simp at hq
    · have hr : r = p := by
        have h := hp
        rw [hU] at h
        simpa using h
      have hsU : keysIncreasing (U ++ [r]) := hU ▸ hs
      have hqU : q ∈ U ++ [r] := hU ▸ hq
      rcases List.mem_append.1 hqU with h | h
      · have hlt : q.1 < r.1 := (List.pairwise_append.1 hsU).2.2 q h r (by simp)
        rw [hr] at hlt
        exact not_lt_of_ge (le_trans (le_of_lt hlt) hk)
      · have : q = r := by simpa using h
        rw [this, hr]
        exact not_lt_of_ge hk
  rw [lookup_increasing bg0 l k hs, upTo_eq_self l k hall]
  exact congrArg some hl

/-- C18 (entries outside the written range are untouched): on a table with
strictly increasing keys and for `b < e`, a key `k` with `k < b` or `e < k` has
the entry `k->x` after `assign(b, e, v)` exactly when it had it before. -/
theorem outside_untouched (m : interval_map K V) (b e : K) (v : V) (k : K)
    (hs : keysIncreasing m.m_map) (hbe : b < e) (hk : k < b ∨ e < k) :
    ∃ m1, assign m b e v = some m1 ∧ ∀ x, (k, x) ∈ m1.m_map ↔ (k, x) ∈ m.m_map := by
  obtain ⟨bg, l⟩ := m
  exact ⟨⟨bg, mergedTable bg l b e v⟩, assign_increasing bg l b e v hs hbe,
    fun x => mem_mergedTable_outside bg l b e v k x hbe hk⟩

/-- Witness for C18: the table `3->'B'`, `5->'C'`, `7->'B'`, `9->'A'` with
background `'A'`, `assign(4, 8, 'D')` and the key `9`. -/
theorem outside_untouched_witness :
    keysIncreasing [((3 : Int), 'B'), (5, 'C'), (7, 'B'), (9, 'A')] ∧ (4 : Int) < 8
      ∧ ((9 : Int) < 4 ∨ (8 : Int) < 9)
      ∧ ∃ m1, assign ⟨'A', [((3 : Int), 'B'), (5, 'C'), (7, 'B'), (9, 'A')]⟩ 4 8 'D' = some m1
        ∧ ∀ x, ((9 : Int), x) ∈ m1.m_map
            ↔ ((9 : Int), x) ∈ [((3 : Int), 'B'), (5, 'C'), (7, 'B'), (9, 'A')] :=
  ⟨by decide, by decide, by decide,
    outside_untouched ⟨'A', [((3 : Int), 'B'), (5, 'C'), (7, 'B'), (9, 'A')]⟩ 4 8 'D' 9
      (by decide) (by decide) (by decide)⟩

/-- C19 (erasing by assigning the background value): in a state reached from
construction with background `bg` by `assign` calls, for `b < e` with `b` at or
below every stored key and `e` at or above every stored key, `assign(b, e, bg)`
leaves the table empty. -/
theorem assign_background_erases (bg : V) (calls : List (K × K × V)) (m : interval_map K V)
    (b e : K) (hm : assignAll (ctor bg) calls = some m) (hbe : b < e)
    (hb : ∀ p ∈ m.m_map, b ≤ p.1) (he : ∀ p ∈ m.m_map, p.1 ≤ e) :
    ∃ m1, assign m b e bg = some m1 ∧ m1.m_valBegin = bg ∧ m1.m_map = []
      ∧ GetSize m1 = 0 := by
  obtain ⟨m0, hm0, hbg, hw⟩ := assignAll_wellFormed (ctor bg) calls (wellFormed_ctor bg)
  have hmm : m0 = m := Option.some.inj (hm0.symm.trans hm)
  subst hmm
  obtain ⟨bg0, l⟩ := m0
  have hb0 : bg0 = bg := hbg
  subst hb0
  obtain ⟨hs, _, hl⟩ := hw
  have hl2 : lastVal bg0 l = bg0 := hl
  have hle : ∀ q ∈ l, ¬ e < q.1 := fun q hq => not_lt_of_ge (he q hq)
  have hres := assign_increasing bg0 l b e bg0 hs hbe
  unfold mergedTable at hres
  rw [below_eq_nil l b (fun q hq => not_lt_of_ge (hb q hq)), upTo_eq_self l e hle,
    above_eq_nil l e hle, hl2] at hres
  refine ⟨⟨bg0, []⟩, ?_, rfl, rfl, rfl⟩
  rw [hres]
  simp [leftEdge, rightEdge, lastVal]

/-- Witness for C19: after `assign(3, 5, 'B')` and `assign(5, 7, 'C')` on
background `'A'`, `assign(3, 7, 'A')` empties the table. -/
theorem assign_background_erases_witness :
    assignAll (ctor 'A') [((3 : Int), 5, 'B'), (5, 7, 'C')]
        = some ⟨'A', [((3 : Int), 'B'), (5, 'C'), (7, 'A')]⟩
      ∧ (3 : Int) < 7
      ∧ (∀ p ∈ [((3 : Int), 'B'), (5, 'C'), (7, 'A')], (3 : Int) ≤ p.1)
      ∧ (∀ p ∈ [((3 : Int), 'B'), (5, 'C'), (7, 'A')], p.1 ≤ (7 : Int))
      ∧ ∃ m1, assign ⟨'A', [((3 : Int), 'B'), (5, 'C'), (7, 'A')]⟩ 3 7 'A' = some m1
        ∧ m1.m_valBegin = 'A' ∧ m1.m_map = [] ∧ GetSize m1 = 0 :=
  ⟨by decide, by decide, by decide, by decide,
    assign_background_erases 'A' [((3 : Int), 5, 'B'), (5, 7, 'C')]
      ⟨'A', [((3 : Int), 'B'), (5, 'C'), (7, 'A')]⟩ 3 7
      (by decide) (by decide) (by decide) (by decide)⟩

end interval_map

/-! ## The iterators of `assign` at the erase loop -/

namespace interval_map

open StdMap

variable {K V : Type} [LinearOrder K] [DecidableEq V]

theorem assign_eq_head (m : interval_map K V) (b e : K) (v : V) :
    assign m b e v = (assignHead m b e v).bind (assignFinish m.m_valBegin e v) := by
  unfold assign assignHead
  by_cases h1 : b < e
  · rw [if_neg (not_not.2 h1), if_neg (not_not.2 h1)]
    by_cases h2 : m.m_map.isEmpty = true
    · simp only [if_pos h2]
      by_cases h3 : (!decide (v = m.m_valBegin)) = true
      · simp only [if_pos h3, Option.some_bind, assignFinish]
      · simp only [if_neg h3, Option.some_bind, assignFinish]
    · simp only [if_neg h2]
      cases valueBefore m.m_valBegin m.m_map (upper_bound m.m_map e) with
      | none => rfl
      | some valEnd =>
        simp only [Option.some_bind]
        by_cases h4 : upper_bound m.m_map e = 0
        · simp only [if_pos h4]
          by_cases h3 : (!decide (v = m.m_valBegin)) = true
          · simp only [if_pos h3, Option.some_bind, assignFinish]
          · simp only [if_neg h3, Option.some_bind, assignFinish]
        · simp only [if_neg h4]
          cases leftBound m.m_map b with
          | none => rfl
          | some itBegin =>
            simp only [Option.some_bind]
            by_cases h5 : itBegin = 0
            · simp only [if_pos h5, Option.some_bind, assignFinish]
            · simp only [if_neg h5]
              by_cases h6 : itBegin = m.m_map.length
              · simp only [if_pos h6]
                cases prev itBegin with
                | none => rfl
                | some i =>
                  simp only [Option.some_bind]
                  cases deref m.m_map i with
                  | none => rfl
                  | some p =>
                    simp only [Option.some_bind]
                    by_cases h7 : p.2 = v
                    · simp only [if_pos h7, Option.some_bind, assignFinish]
                    · simp only [if_neg h7, Option.some_bind, assignFinish]
              · simp only [if_neg h6]
                cases prev itBegin with
                | none => rfl
                | some i =>
                  simp only [Option.some_bind]
                  cases deref m.m_map i with
                  | none => rfl
                  | some p =>
                    simp only [Option.some_bind]
                    by_cases h7 : p.2 = v
                    · simp only [if_pos h7, Option.some_bind, assignFinish]
                    · simp only [if_neg h7, Option.some_bind, assignFinish]
  · rw [if_pos h1, if_pos h1]
    rfl

/-- The erase loop of `assign` on a table split as in `assign_split`: the
table at the loop is `A ++ Mid ++ R`, the loop starts at the end of `A`, and
`itEnd` is at the end of `Mid`. -/
theorem assignHead_split (bg : V) (L Mb M R : List (K × V)) (b e : K) (v : V) (hbe : b < e)
    (hL : ∀ p ∈ L, p.1 < b) (hMb : AtMostKey b Mb)
    (hM : ∀ p ∈ M, b < p.1 ∧ ¬ e < p.1) (hR : ∀ p ∈ R, e < p.1)
    (s : LoopEntry K V) (hs : assignHead ⟨bg, L ++ Mb ++ M ++ R⟩ b e v = some (.inr s)) :
    ∃ A Mid, s.table = A ++ Mid ++ R ∧ loopStart s = some A.length
      ∧ s.itEnd = A.length + Mid.length ∧ ∀ p ∈ A ++ Mid, ¬ e < p.1 := by
  have hMbe : ∀ p ∈ Mb, ¬ e < p.1 := by
    intro p hp
    rcases hMb with rfl | ⟨x, rfl⟩
    · simp at hp
    · have : p = (b, x) := by simpa using hp
      subst this; exact not_lt_of_gt hbe
  have hLe : ∀ p ∈ L, ¬ e < p.1 := fun p hp => not_lt_of_gt (lt_trans (hL p hp) hbe)
  have hMe : ∀ p ∈ M, ¬ e < p.1 := fun p hp => (hM p hp).2
  have hLMe : ∀ p ∈ L ++ Mb ++ M, ¬ e < p.1 := by
    intro p hp
    rcases List.mem_append.1 hp with h | h
    · rcases List.mem_append.1 h with h | h
      · exact hLe p h
      · exact hMbe p h
    · exact hMe p h
  have hXb : ∀ p ∈ M ++ R, b < p.1 := by
    intro p hp
    rcases List.mem_append.1 hp with h | h
    · exact (hM p h).1
    · exact lt_trans hbe (hR p h)
  have hue : upper_bound (L ++ Mb ++ M ++ R) e = (L ++ Mb ++ M).length :=
    upper_bound_append (L ++ Mb ++ M) R e hLMe hR
  have hvb : valueBefore bg (L ++ Mb ++ M ++ R) (L ++ Mb ++ M).length
      = some (lastVal bg (L ++ Mb ++ M)) := valueBefore_append bg (L ++ Mb ++ M) R
  have hlb : leftBound (L ++ Mb ++ M ++ R) b = some L.length := by
    have := leftBound_split L Mb (M ++ R) b hL hMb hXb
    simpa [List.append_assoc] using this
  obtain ⟨flag, hins, haft⟩ := insert_begin_split L Mb M R b e v hbe hL hMb hM hR
  have hbv : ∀ p ∈ [(b, v)], ¬ e < p.1 := by
    intro p hp
    have : p = (b, v) := by simpa using hp
    subst this; exact not_lt_of_gt hbe
  unfold assignHead at hs
  simp only [hue, hvb, hlb, Option.some_bind, hins, haft] at hs
  rw [if_neg (not_not.2 hbe)] at hs
  by_cases hLM : L ++ Mb ++ M = []
  · exfalso
    obtain ⟨rfl, rfl, rfl⟩ : L = [] ∧ Mb = [] ∧ M = [] := by
      simpa [List.append_eq_nil, and_assoc] using hLM
    simp only [List.nil_append, List.length_nil, if_true, ite_self] at hs
    by_cases hv : (!decide (v = bg)) = true
    · rw [if_pos hv] at hs; cases hs
    · rw [if_neg hv] at hs; cases hs
  · have hne : (L ++ Mb ++ M ++ R).isEmpty = false := by
      cases hc : L ++ Mb ++ M with
      | nil => exact absurd hc hLM
      | cons q t => rfl
    have hlen0 : (L ++ Mb ++ M).length ≠ 0 := fun h => hLM (List.length_eq_zero.1 h)
    rw [hne, if_neg (by simp), if_neg hlen0] at hs
    rcases eq_nil_or_snoc L with rfl | ⟨L1, p, rfl⟩
    · rw [if_pos List.length_nil] at hs
      have hs2 := Sum.inr.inj (Option.some.inj hs)
      subst hs2
      by_cases hv : v = bg
      · refine ⟨[], [(b, v)] ++ M, by simp, by simp [loopStart, hv], by simp; omega, ?_⟩
        intro q hq
        rcases List.mem_append.1 hq with h | h
        · simp at h
        · rcases List.mem_append.1 h with h | h
          · exact hbv q h
          · exact hMe q h
      · refine ⟨[(b, v)], M, by simp, by simp [loopStart, hv, next], by simp, ?_⟩
        intro q hq
        rcases List.mem_append.1 hq with h | h
        · exact hbv q h
        · exact hMe q h
    · have hl0 : (L1 ++ [p]).length ≠ 0 := by simp
      have hpv : prev (L1 ++ [p]).length = some L1.length := by simp [prev]
      have hd : deref (L1 ++ [p] ++ Mb ++ M ++ R) L1.length = some p := by
        have := deref_append_length L1 (Mb ++ M ++ R) p
        simpa [List.append_assoc] using this
      rw [if_neg hl0, hpv] at hs
      simp only [Option.some_bind, hd] at hs
      by_cases hrest : Mb ++ M ++ R = []
      · exfalso
        obtain ⟨rfl, rfl, rfl⟩ : Mb = [] ∧ M = [] ∧ R = [] := by
          simpa [List.append_eq_nil, and_assoc] using hrest
        simp only [List.append_nil, if_true] at hs
        by_cases hv : p.2 = v
        · rw [if_pos hv] at hs; cases hs
        · rw [if_neg hv] at hs; cases hs
      · have hlen : (L1 ++ [p]).length ≠ (L1 ++ [p] ++ Mb ++ M ++ R).length := by
          have : 0 < (Mb ++ M ++ R).length := List.length_pos.2 hrest
          simp only [List.length_append] at this ⊢; omega
        rw [if_neg hlen] at hs
        by_cases hv : p.2 = v
        · rw [if_pos hv] at hs
          have hs2 := Sum.inr.inj (Option.some.inj hs)
          subst hs2
          refine ⟨L1 ++ [p], Mb ++ M, by simp, by simp [loopStart, next], by simp; omega, ?_⟩
          intro q hq
          rcases List.mem_append.1 hq with h | h
          · exact hLe q h
          · rcases List.mem_append.1 h with h | h
            · exact hMbe q h
            · exact hMe q h
        · rw [if_neg hv] at hs
          have hs2 := Sum.inr.inj (Option.some.inj hs)
          subst hs2
          refine ⟨L1 ++ [p] ++ [(b, v)], M, by simp, by simp [loopStart, next],
            by simp, ?_⟩
          intro q hq
          rcases List.mem_append.1 hq with h | h
          · rcases List.mem_append.1 h with h | h
            · exact hLe q h
            · exact hbv q h
          · exact hMe q h

theorem take_drop_split (A Mid R : List (K × V)) :
    (A ++ Mid ++ R).take A.length ++ (A ++ Mid ++ R).drop (A.length + Mid.length) = A ++ R := by
  have h1 : (A ++ Mid ++ R).take A.length = A := by
    rw [List.append_assoc, List.take_left']
    rfl
  have h2 : (A ++ Mid ++ R).drop (A.length + Mid.length) = R := by
    rw [List.drop_left']
    simp
  rw [h1, h2]

theorem erase_range_increasing (bg : V) (l : List (K × V)) (b e : K) (v : V)
    (hs : keysIncreasing l) (hbe : b < e)
    (s : LoopEntry K V) (hh : assignHead ⟨bg, l⟩ b e v = some (.inr s)) :
    ∃ start, loopStart s = some start ∧ start ≤ s.itEnd ∧ s.itEnd ≤ s.table.length
      ∧ s.itEnd = upper_bound s.table e
      ∧ eraseLoop (s.table.length + 1) s.table start s.itEnd
          = some (s.table.take start ++ s.table.drop s.itEnd) := by
  obtain ⟨Mb, M, hl, _, hMb, hM⟩ := split_four l hs b e hbe
  have hh2 : assignHead ⟨bg, below l b ++ Mb ++ M ++ above l e⟩ b e v = some (.inr s) := by
    rw [← hl]; exact hh
  obtain ⟨A, Mid, ht, hstart, hend, hAM⟩ :=
    assignHead_split bg (below l b) Mb M (above l e) b e v hbe
      (fun p hp => mem_below hp) hMb hM (fun p hp => mem_above hp) s hh2
  have hR : ∀ p ∈ above l e, e < p.1 := fun p hp => mem_above hp
  refine ⟨A.length, hstart, ?_, ?_, ?_, ?_⟩
  · omega
  · rw [ht, hend]; simp
  · rw [ht, hend, upper_bound_append (A ++ Mid) (above l e) e hAM hR]; simp
  · rw [ht, hend, take_drop_split]
    exact eraseLoop_range A Mid (above l e) _ (by simp; omega)

/-- C20 (the erase range is well formed): on a non-empty table with strictly
increasing keys and for `b < e`, `assign(b, e, v)` returns, so no iterator
operation of it is undefined: every `std::prev` is taken at a position other
than the first.  `assign` is `assignHead` followed by `assignFinish`, and
whenever `assignHead` reaches the erase loop, the position the loop starts
from exists, is at or before `itEnd`, `itEnd` is `upper_bound(e)` in the table
at that point and within it, and the loop ends at `itEnd`, leaving the table
without the entries from the start position up to `itEnd`. -/
theorem erase_range_wellformed (m : interval_map K V) (b e : K) (v : V)
    (hne : m.m_map ≠ []) (hs : keysIncreasing m.m_map) (hbe : b < e) :
    (∃ m1, assign m b e v = some m1)
      ∧ assign m b e v = (assignHead m b e v).bind (assignFinish m.m_valBegin e v)
      ∧ ∀ s, assignHead m b e v = some (.inr s) →
          ∃ start, loopStart s = some start ∧ start ≤ s.itEnd ∧ s.itEnd ≤ s.table.length
            ∧ s.itEnd = upper_bound s.table e
            ∧ eraseLoop (s.table.length + 1) s.table start s.itEnd
                = some (s.table.take start ++ s.table.drop s.itEnd) := by
  have _ := hne
  obtain ⟨bg, l⟩ := m
  exact ⟨⟨_, assign_increasing bg l b e v hs hbe⟩, assign_eq_head _ b e v,
    fun s hh => erase_range_increasing bg l b e v hs hbe s hh⟩

/-- Witness for C20: the table `3->'B'`, `5->'C'`, `7->'A'` with background
`'A'` and `assign(4, 6, 'D')`, which reaches the erase loop. -/
theorem erase_range_wellformed_witness :
    [((3 : Int), 'B'), (5, 'C'), (7, 'A')] ≠ []
      ∧ keysIncreasing [((3 : Int), 'B'), (5, 'C'), (7, 'A')] ∧ (4 : Int) < 6
      ∧ (∃ s, assignHead ⟨'A', [((3 : Int), 'B'), (5, 'C'), (7, 'A')]⟩ 4 6 'D'
          = some (.inr s))
      ∧ (∃ m1, assign ⟨'A', [((3 : Int), 'B'), (5, 'C'), (7, 'A')]⟩ 4 6 'D' = some m1)
      ∧ assign ⟨'A', [((3 : Int), 'B'), (5, 'C'), (7, 'A')]⟩ 4 6 'D'
          = (assignHead ⟨'A', [((3 : Int), 'B'), (5, 'C'), (7, 'A')]⟩ 4 6 'D').bind
              (assignFinish 'A' 6 'D')
      ∧ ∀ s, assignHead ⟨'A', [((3 : Int), 'B'), (5, 'C'), (7, 'A')]⟩ 4 6 'D'
            = some (.inr s) →
          ∃ start, loopStart s = some start ∧ start ≤ s.itEnd ∧ s.itEnd ≤ s.table.length
            ∧ s.itEnd = upper_bound s.table 6
            ∧ eraseLoop (s.table.length + 1) s.table start s.itEnd
                = some (s.table.take start ++ s.table.drop s.itEnd) :=
  ⟨by decide, by decide, by decide, ⟨_, rfl⟩,
    erase_range_wellformed ⟨'A', [((3 : Int), 'B'), (5, 'C'), (7, 'A')]⟩ 4 6 'D'
      (by decide) (by decide) (by decide)⟩

end interval_map
